import Mathlib

/-!
Verification of the homelabctl generation pipeline core against its
specification.  Go maps are modelled as association lists (`SMap`), Go
`interface{}` values as the inductive `CVal`, fallible functions as `Except`,
and the on-disk stack repository as a function from stack names to parsed
manifests.  Warnings printed to stderr are modelled as an explicit warning
list returned alongside results.
-/

namespace Homelab

/-- Association-list model of a Go `map[string]V`.  Only lookup, overwrite
and key-enumeration are used by the code under study, so the representation
is free; keys are unique by construction of `SMap.set`. -/
def SMap (V : Type) : Type := List (String × V)

instance (V : Type) [DecidableEq V] : DecidableEq (SMap V) := by
  unfold SMap
  infer_instance

/-- The empty map. -/
def SMap.empty {V : Type} : SMap V := []

/-- Lookup: Go `m[k]` (returning the value and presence flag). -/
def SMap.get? {V : Type} : SMap V → String → Option V
  | [], _ => none
  | (k', v) :: rest, k => if k' = k then some v else SMap.get? rest k

/-- Go `_, exists := m[k]`. -/
def SMap.contains {V : Type} (m : SMap V) (k : String) : Bool :=
  (m.get? k).isSome

/-- Overwriting insert: Go `m[k] = v`. -/
def SMap.set {V : Type} (m : SMap V) (k : String) (v : V) : SMap V :=
  (k, v) :: m.filter (fun p => decide (p.1 ≠ k))

/-- The key list of a map. -/
def SMap.keys {V : Type} (m : SMap V) : List String := m.map Prod.fst

/-- Go `for k, v := range src: dst[k] = v`. -/
def SMap.insertAll {V : Type} (dst : SMap V) (src : SMap V) : SMap V :=
  src.foldl (fun acc p => acc.set p.1 p.2) dst

/-- A Go map never holds the same key twice; inputs taken from Go maps
satisfy this predicate. -/
def SMap.NodupKeys {V : Type} (m : SMap V) : Prop := (m.map Prod.fst).Nodup

instance {V : Type} (m : SMap V) : Decidable m.NodupKeys := by
  unfold SMap.NodupKeys
  infer_instance

instance {e a : Type} [DecidableEq e] [DecidableEq a] :
    DecidableEq (Except e a)
  | .error e1, .error e2 =>
    if h : e1 = e2 then .isTrue (by rw [h])
    else .isFalse (fun hc => h (Except.error.inj hc))
  | .error _, .ok _ => .isFalse (fun hc => Except.noConfusion hc)
  | .ok _, .error _ => .isFalse (fun hc => Except.noConfusion hc)
  | .ok a1, .ok a2 =>
    if h : a1 = a2 then .isTrue (by rw [h])
    else .isFalse (fun hc => h (Except.ok.inj hc))

/-- A YAML-ish value: the model of Go `interface{}` data flowing through
the pipeline. -/
inductive CVal where
  | str : String → CVal
  | boolean : Bool → CVal
  | num : Int → CVal
  | vlist : List CVal → CVal
  | vmap : List (String × CVal) → CVal

mutual

/-- Boolean equality of values: the model of comparing the YAML
serializations of two parsed values (`yaml.Marshal` output equality). -/
def CVal.beq : CVal → CVal → Bool
  | .str a, .str b => a == b
  | .boolean a, .boolean b => a == b
  | .num a, .num b => a == b
  | .vlist a, .vlist b => CVal.beqList a b
  | .vmap a, .vmap b => CVal.beqPairs a b
  | _, _ => false

/-- Elementwise `CVal.beq` on lists. -/
def CVal.beqList : List CVal → List CVal → Bool
  | [], [] => true
  | a :: as, b :: bs => CVal.beq a b && CVal.beqList as bs
  | _, _ => false

/-- Elementwise `CVal.beq` on keyed entries. -/
def CVal.beqPairs : List (String × CVal) → List (String × CVal) → Bool
  | [], [] => true
  | (k1, v1) :: as, (k2, v2) :: bs => k1 == k2 && CVal.beq v1 v2 && CVal.beqPairs as bs
  | _, _ => false

end

/-- A stack manifest (`stack.yaml`), as parsed from disk. -/
structure StackManifest (V : Type) where
  name : String
  category : String
  requires : List String
  services : List String
  vars : SMap V

/-- The on-disk stack repository: for each stack name, the parsed
`stacks/name/stack.yaml` (or `none` when the file is missing or fails
to parse). -/
def Env (V : Type) : Type := String → Option (StackManifest V)

/-- A category record from the category registry. -/
structure Category (V : Type) where
  name : String
  displayName : String
  order : Int
  defaults : SMap V

/-- The category registry at lookup time (`categories.Get`): `none` means
the category has not been registered. -/
def Reg (V : Type) : Type := String → Option (Category V)

/-- `categories.GetOrder`: the order of a registered category, 999 for an
unknown one (`GetOrDefault` registers unknown categories with order 999). -/
def getOrder {V : Type} (reg : Reg V) (name : String) : Int :=
  match reg name with
  | some c => c.order
  | none => 999

/-- `stacks.LoadStack`: read the manifest for `name` and validate it.
Checks mirror stacks.go: presence, non-empty `name` equal to the directory
name, non-empty `category`, the deprecated services-from-vars fallback,
non-empty services after fallback, and rejection of self-dependencies. -/
def loadStack {V : Type} (env : Env V) (name : String) :
    Except String (StackManifest V) :=
  match env name with
  | none => .error ("failed to read stack.yaml for " ++ name)
  | some stack =>
    if stack.name = "" then
      .error ("stack.yaml for " ++ name ++ " missing name field")
    else if stack.name ≠ name then
      .error ("stack.yaml name mismatch: directory=" ++ name ++ ", name=" ++ stack.name)
    else if stack.category = "" then
      .error ("stack.yaml for " ++ name ++ " missing category field")
    else
      let stack :=
        if stack.services.isEmpty && !(stack.vars).isEmpty then
          { stack with services := stack.vars.map Prod.fst }
        else stack
      if stack.services.isEmpty then
        .error ("stack.yaml for " ++ name ++ " has no services defined")
      else if name ∈ stack.requires then
        .error ("stack " ++ name ++ " cannot depend on itself")
      else .ok stack

/-- `stacks.MergeVariables`: stack defaults, then inventory vars, then
secrets, each layer overwriting the previous one key by key. -/
def MergeVariables {V : Type} (stackVars inventoryVars secrets : SMap V) : SMap V :=
  ((SMap.empty.insertAll stackVars).insertAll inventoryVars).insertAll secrets

/-- `stacks.MergeWithCategoryDefaults`: loads the stack, resolves its
category, and merges category defaults, stack vars, inventory vars and
secrets in that order (later layers overwrite earlier ones). -/
def MergeWithCategoryDefaults {V : Type} (env : Env V) (reg : Reg V)
    (stackName : String) (stackVars inventoryVars secrets : SMap V) :
    Except String (SMap V) :=
  match loadStack env stackName with
  | .error e => .error e
  | .ok stack =>
    match reg stack.category with
    | none => .error ("unknown category: " ++ stack.category)
    | some cat =>
      .ok ((((SMap.empty.insertAll cat.defaults).insertAll stackVars).insertAll
        inventoryVars).insertAll secrets)

/-- `stacks.EnabledStacksMap`: list-to-lookup-set conversion. -/
def EnabledStacksMap (stackNames : List String) : String → Bool :=
  fun s => decide (s ∈ stackNames)

/-- `inventory.DisableService`, acting on the `disabled_services` list of
the state file: fails when the service is already present (the state file
is then not rewritten), otherwise appends the name and rewrites. -/
def DisableService (disabled : List String) (serviceName : String) :
    Except String (List String) :=
  if serviceName ∈ disabled then
    .error ("service " ++ serviceName ++ " is already disabled")
  else .ok (disabled ++ [serviceName])

/-- `inventory.EnableService`: removes every occurrence of the name from
the `disabled_services` list; fails when the name is absent (the state
file is then not rewritten). -/
def EnableService (disabled : List String) (serviceName : String) :
    Except String (List String) :=
  if serviceName ∈ disabled then
    .ok (disabled.filter (fun s => decide (s ≠ serviceName)))
  else .error ("service " ++ serviceName ++ " is not disabled")

/-- One step of the legacy-migration loop of
`inventory.MigrateDisabledServices`: a string item not already present is
appended; non-string items and names already present are skipped. -/
def migrateItem (acc : List String) : CVal → List String
  | .str s => if s ∈ acc then acc else acc ++ [s]
  | _ => acc

/-- `inventory.MigrateDisabledServices`: merges the legacy
`disabled_services` key of `vars.yaml` (when it is a list) into the state
list, skipping non-string items and names already present. -/
def MigrateDisabledServices (vars : SMap CVal) (disabled : List String) :
    List String :=
  match SMap.get? vars "disabled_services" with
  | some (.vlist items) => items.foldl migrateItem disabled
  | _ => disabled

/-- A parsed compose fragment (`compose.ComposeFile`). -/
structure ComposeFile where
  services : SMap CVal
  volumes : SMap CVal
  networks : SMap CVal

/-- Warnings printed to stderr during the compose merge. -/
inductive MergeWarning where
  | duplicateVolume (name : String)
  | conflictingVolume (name : String)
  | duplicateNetwork (name : String)
deriving DecidableEq

/-- Go: the parsed network value is a map holding key `external` bound to
a boolean, and that boolean is true. -/
def isExternalNet : CVal → Bool
  | .vmap kvs =>
    match SMap.get? kvs "external" with
    | some (.boolean b) => b
    | _ => false
  | _ => false

/-- The services loop of `compose.MergeComposeFiles`: a name already
present in the accumulator is a fatal duplicate-service error. -/
def mergeServicesGo (merged : SMap CVal) : SMap CVal → Except String (SMap CVal)
  | [] => .ok merged
  | (name, svc) :: rest =>
    if merged.contains name then .error ("duplicate service name: " ++ name)
    else mergeServicesGo (merged.set name svc) rest

/-- The volumes loop of `compose.MergeComposeFiles`: the first definition
wins; a duplicate warns, and warns again when the two definitions differ. -/
def mergeVolumesGo (merged : SMap CVal) (warns : List MergeWarning) :
    SMap CVal → SMap CVal × List MergeWarning
  | [] => (merged, warns)
  | (name, vol) :: rest =>
    match SMap.get? merged name with
    | some existing =>
      if CVal.beq existing vol then
        mergeVolumesGo merged (warns ++ [.duplicateVolume name]) rest
      else
        mergeVolumesGo merged
          ((warns ++ [.duplicateVolume name]) ++ [.conflictingVolume name]) rest
    | none => mergeVolumesGo (merged.set name vol) warns rest

/-- The networks loop of `compose.MergeComposeFiles`: a non-external
definition replaces an external one; otherwise the first definition wins,
with a warning when both definitions are non-external. -/
def mergeNetworksGo (merged : SMap CVal) (warns : List MergeWarning) :
    SMap CVal → SMap CVal × List MergeWarning
  | [] => (merged, warns)
  | (name, net) :: rest =>
    match SMap.get? merged name with
    | some existing =>
      if isExternalNet net && !isExternalNet existing then
        mergeNetworksGo merged warns rest
      else if !isExternalNet net && isExternalNet existing then
        mergeNetworksGo (merged.set name net) warns rest
      else if !isExternalNet net && !isExternalNet existing then
        mergeNetworksGo merged (warns ++ [.duplicateNetwork name]) rest
      else
        mergeNetworksGo merged warns rest
    | none => mergeNetworksGo (merged.set name net) warns rest

/-- Merge one parsed fragment into the accumulator. -/
def mergeOneFile (acc : ComposeFile) (warns : List MergeWarning)
    (f : ComposeFile) : Except String (ComposeFile × List MergeWarning) :=
  match mergeServicesGo acc.services f.services with
  | .error e => .error e
  | .ok svcs =>
    .ok ({ services := svcs,
           volumes := (mergeVolumesGo acc.volumes warns f.volumes).1,
           networks := (mergeNetworksGo acc.networks
             (mergeVolumesGo acc.volumes warns f.volumes).2 f.networks).1 },
         (mergeNetworksGo acc.networks
           (mergeVolumesGo acc.volumes warns f.volumes).2 f.networks).2)

/-- The fold of `compose.MergeComposeFiles` over the fragment list. -/
def mergeFilesGo (acc : ComposeFile) (warns : List MergeWarning) :
    List ComposeFile → Except String (ComposeFile × List MergeWarning)
  | [] => .ok (acc, warns)
  | f :: rest =>
    match mergeOneFile acc warns f with
    | .error e => .error e
    | .ok (acc2, warns2) => mergeFilesGo acc2 warns2 rest

/-- `compose.MergeComposeFiles` on the parsed fragments, also returning
the warnings printed to stderr. -/
def MergeComposeFiles (files : List ComposeFile) :
    Except String (ComposeFile × List MergeWarning) :=
  mergeFilesGo { services := [], volumes := [], networks := [] } [] files

/-- `pipeline.MergeComposeStage` collects the per-stack rendered fragment
paths by ranging over the Go map `ctx.RenderedCompose`; Go map iteration
order is unspecified and varies between runs, so the fragments reach
`MergeComposeFiles` in an arbitrary enumeration order of that map. -/
def MergeComposeStage (renderedFragments : List ComposeFile) :
    Except String (ComposeFile × List MergeWarning) :=
  MergeComposeFiles renderedFragments

/-- Fragments used to witness C5. -/
def c5FragA : ComposeFile :=
  { services := [("app", CVal.num 1)], volumes := [], networks := [] }

/-- Second fragment used to witness C5, defining the same service name. -/
def c5FragB : ComposeFile :=
  { services := [("app", CVal.num 2), ("db", CVal.num 3)], volumes := [], networks := [] }

/-- First fragment used to witness C6: it creates network `net`
(non-external) and runs service `a`. -/
def c6FragA : ComposeFile :=
  { services := [("a", CVal.num 1)], volumes := [],
    networks := [("net", CVal.vmap [("driver", CVal.str "bridge")])] }

/-- Second fragment used to witness C6: it references network `net` as
external and runs service `b`. -/
def c6FragB : ComposeFile :=
  { services := [("b", CVal.num 2)], volumes := [],
    networks := [("net", CVal.vmap [("external", CVal.boolean true)])] }

/-- Fragment of one stack used for C3: it creates network `net` with an
empty (non-external) definition. -/
def c3FragA : ComposeFile :=
  { services := [("svca", CVal.num 1)], volumes := [],
    networks := [("net", CVal.vmap [])] }

/-- Fragment of another stack used for C3: it creates network `net` with a
different (non-external) definition. -/
def c3FragB : ComposeFile :=
  { services := [("svcb", CVal.num 2)], volumes := [],
    networks := [("net", CVal.vmap [("driver", CVal.str "bridge")])] }

/-- The per-stack configuration carried by the pipeline context
(`pipeline.StackConfig`). -/
structure StackConfig where
  name : String
  mergedVars : SMap CVal
  filteredVars : SMap CVal
  services : List String

/-- `pipeline.FilterServicesStage` on one stack config: all variables are
kept for template rendering; `FilteredVars` is set to `MergedVars` in
both branches of the stage. -/
def filterServicesStageConfig (cfg : StackConfig) : StackConfig :=
  { cfg with filteredVars := cfg.mergedVars }

/-- The rendering context handed to the template engine
(`render.Context`). -/
structure RenderContext where
  vars : SMap CVal
  stack : SMap CVal
  allStacks : SMap CVal

/-- `pipeline.RenderTemplatesStage`: the template context built for one
stack; the category slot is hard-coded to the empty string in the source
(the comment there reads: Load from stack if needed). -/
def buildTemplateContext (stackName : String) (cfg : StackConfig)
    (enabledStacks : List String) : RenderContext :=
  { vars := cfg.filteredVars,
    stack := [("name", CVal.str stackName), ("category", CVal.str "")],
    allStacks := [("enabled", CVal.vlist (enabledStacks.map CVal.str))] }

/-- Manifest used in the C8 counterexample. -/
def c8Stack : StackManifest CVal :=
  { name := "web", category := "tools", requires := [], services := ["nginx"],
    vars := [("nginx", CVal.num 1)] }

/-- Environment used in the C8 counterexample. -/
def c8Env : Env CVal := fun s => if s = "web" then some c8Stack else none

/-- Stack config used in the C8 counterexample. -/
def c8Config : StackConfig :=
  { name := "web", mergedVars := [("nginx", CVal.num 1)],
    filteredVars := [("nginx", CVal.num 1)], services := ["nginx"] }

/-- An operation on the persisted `disabled_services` state. -/
inductive StateOp where
  | disableSvc (x : String)
  | enableSvc (x : String)
  | migrate (vars : SMap CVal)

/-- Run one state operation; a failing operation returns before
`writeState`, leaving the state file unchanged. -/
def applyStateOp (disabled : List String) : StateOp → List String
  | .disableSvc x =>
    match DisableService disabled x with
    | .ok d => d
    | .error _ => disabled
  | .enableSvc x =>
    match EnableService disabled x with
    | .ok d => d
    | .error _ => disabled
  | .migrate vars => MigrateDisabledServices vars disabled

/-- Run a sequence of state operations. -/
def applyStateOps (disabled : List String) (ops : List StateOp) : List String :=
  ops.foldl applyStateOp disabled

/-- Concrete repository used to witness C1. -/
def c1Stack : StackManifest Nat :=
  { name := "web", category := "core", requires := [], services := ["nginx"],
    vars := [("nginx", 1)] }

/-- Concrete environment used to witness C1. -/
def c1Env : Env Nat := fun n => if n = "web" then some c1Stack else none

/-- Concrete category used to witness C1. -/
def c1Cat : Category Nat :=
  { name := "core", displayName := "Core", order := 1, defaults := [("restart", 7)] }

/-- Concrete registry used to witness C1. -/
def c1Reg : Reg Nat := fun c => if c = "core" then some c1Cat else none

/-- Concrete merged result used to witness C1. -/
def c1Merged : SMap Nat :=
  (((SMap.empty.insertAll c1Cat.defaults).insertAll
    [("nginx", 1), ("port", 2)]).insertAll [("port", 3)]).insertAll [("token", 4)]

/-- `stacks.StackWithCategory`: a stack name with its category info. -/
structure StackWithCategory where
  name : String
  category : String
  order : Int

/-- The loading loop of `stacks.SortByCategory`: collects category info
for each enabled stack in input order, failing on the first stack that
does not load. -/
def loadStacksInfo {V : Type} (env : Env V) (reg : Reg V) :
    List String → Except String (List StackWithCategory)
  | [] => .ok []
  | name :: rest =>
    match loadStack env name with
    | .error e => .error e
    | .ok stack =>
      match loadStacksInfo env reg rest with
      | .error e => .error e
      | .ok infos =>
        .ok ({ name := name, category := stack.category,
               order := getOrder reg stack.category } :: infos)

/-- The `sort.Slice` less function of `stacks.SortByCategory`: category
order ascending, ties broken by name. -/
def swcLess (a b : StackWithCategory) : Bool :=
  if a.order ≠ b.order then decide (a.order < b.order)
  else decide (a.name.data < b.name.data)

/-- The reflexive closure of `swcLess`: a list is sorted for `sort.Slice`
with `swcLess` exactly when it is pairwise `swcLE`-sorted. -/
def swcLE (a b : StackWithCategory) : Bool := !(swcLess b a)

/-- Insertion step of the sort model. -/
def insertSorted (x : StackWithCategory) :
    List StackWithCategory → List StackWithCategory
  | [] => [x]
  | y :: rest => if swcLE x y then x :: y :: rest else y :: insertSorted x rest

/-- The sort of `stacks.SortByCategory`.  `sort.Slice` guarantees a result
ordered by the comparator but fixes no algorithm; because the sort key
(order, name) is injective on records loaded from a repository, every
correct algorithm produces the same unique output, so a structurally
recursive insertion sort is a faithful model. -/
def sortStacksInfo (l : List StackWithCategory) : List StackWithCategory :=
  l.foldr insertSorted []

/-- `stacks.SortByCategory`: load category info, sort by
(category order, name), extract the names. -/
def SortByCategory {V : Type} (env : Env V) (reg : Reg V)
    (stackNames : List String) : Except String (List String) :=
  match loadStacksInfo env reg stackNames with
  | .error e => .error e
  | .ok infos => .ok ((sortStacksInfo infos).map (fun s => s.name))

/-- The category-info record determined by a stack name (the value
`loadStacksInfo` produces for stacks that load). -/
def infoOf {V : Type} (env : Env V) (reg : Reg V) (n : String) :
    StackWithCategory :=
  match loadStack env n with
  | .ok st => { name := n, category := st.category,
                order := getOrder reg st.category }
  | .error _ => { name := n, category := "", order := 999 }

/-- The deployment-order sort key of a stack name: the category order of
its loaded manifest. -/
def stackOrderKey {V : Type} (env : Env V) (reg : Reg V) (n : String) : Int :=
  match loadStack env n with
  | .ok st => getOrder reg st.category
  | .error _ => 999

/-- The deployment order on names claimed by the spec: category order
ascending, ties broken by ascending lexicographic name. -/
def nameLE {V : Type} (env : Env V) (reg : Reg V) (a b : String) : Prop :=
  stackOrderKey env reg a < stackOrderKey env reg b ∨
    (stackOrderKey env reg a = stackOrderKey env reg b ∧ a ≤ b)

/-- Manifest builder for the C7 witness. -/
def c7Stack (nm cat : String) : StackManifest Nat :=
  { name := nm, category := cat, requires := [], services := ["app"],
    vars := [("app", 0)] }

/-- Environment for the C7 witness. -/
def c7Env : Env Nat := fun n =>
  if n = "web" then some (c7Stack "web" "media")
  else if n = "db" then some (c7Stack "db" "core")
  else if n = "cache" then some (c7Stack "cache" "core")
  else none

/-- Registry for the C7 witness. -/
def c7Reg : Reg Nat := fun c =>
  if c = "core" then
    some { name := "core", displayName := "Core", order := 1, defaults := [] }
  else if c = "media" then
    some { name := "media", displayName := "Media", order := 5, defaults := [] }
  else none

/-- The structured content of the InvalidCategoryDependency error: the Go
code formats all of these fields, together with three remediation
alternatives, into one error string. -/
structure CategoryDepError where
  stackName : String
  stackCategory : String
  stackOrder : Int
  depName : String
  depCategory : String
  depOrder : Int
  alternatives : List String
deriving DecidableEq

/-- Errors of `stacks.ValidateCategoryDependencies`. -/
inductive CatValErr where
  | loadFailed (msg : String)
  | unknownCategory (name : String)
  | invalidDep (e : CategoryDepError)
deriving DecidableEq

/-- The three remediation alternatives of the Go error message: move the
dependency down, move the stack up, or drop the dependency. -/
def categoryDepAlternatives (stackName depName stackCatName depCatName :
    String) : List String :=
  ["Move " ++ depName ++ " to category " ++ stackCatName ++ " or lower",
   "Or move " ++ stackName ++ " to category " ++ depCatName ++ " or higher",
   "Or remove the dependency from stacks/" ++ stackName ++ "/stack.yaml"]

/-- The dependency loop of `stacks.ValidateCategoryDependencies` for one
stack: a dependency that fails to load, or whose category is not
registered, is skipped; a dependency in a strictly higher-ordered
category is a violation. -/
def checkCategoryDeps {V : Type} (env : Env V) (reg : Reg V)
    (stackName : String) (stackCat : Category V) :
    List String → Option CategoryDepError
  | [] => none
  | depName :: rest =>
    match loadStack env depName with
    | .error _ => checkCategoryDeps env reg stackName stackCat rest
    | .ok depStack =>
      match reg depStack.category with
      | none => checkCategoryDeps env reg stackName stackCat rest
      | some depCat =>
        if stackCat.order < depCat.order then
          some { stackName := stackName,
                 stackCategory := stackCat.displayName,
                 stackOrder := stackCat.order,
                 depName := depName,
                 depCategory := depCat.displayName,
                 depOrder := depCat.order,
                 alternatives := categoryDepAlternatives stackName depName
                   stackCat.name depCat.name }
        else checkCategoryDeps env reg stackName stackCat rest

/-- `stacks.ValidateCategoryDependencies`. -/
def ValidateCategoryDependencies {V : Type} (env : Env V) (reg : Reg V) :
    List String → Except CatValErr Unit
  | [] => .ok ()
  | stackName :: rest =>
    match loadStack env stackName with
    | .error e => .error (.loadFailed e)
    | .ok stack =>
      match reg stack.category with
      | none => .error (.unknownCategory stack.category)
      | some stackCat =>
        match checkCategoryDeps env reg stackName stackCat stack.requires with
        | some e => .error (.invalidDep e)
        | none => ValidateCategoryDependencies env reg rest

/-- Manifest of stack `proxy` used in the C4 witness. -/
def c4Proxy : StackManifest Nat :=
  { name := "proxy", category := "infrastructure", requires := ["jelly"],
    services := ["traefik"], vars := [("traefik", 0)] }

/-- Manifest of stack `jelly` used in the C4 witness. -/
def c4Jelly : StackManifest Nat :=
  { name := "jelly", category := "media", requires := [],
    services := ["jellyfin"], vars := [("jellyfin", 0)] }

/-- Environment for the C4 witness: stack `proxy` (category order 2)
requires stack `jelly` (category order 5), a violation. -/
def c4Env : Env Nat := fun n =>
  if n = "proxy" then some c4Proxy
  else if n = "jelly" then some c4Jelly
  else none

/-- Registry for the C4 witness. -/
def c4Reg : Reg Nat := fun c =>
  if c = "infrastructure" then
    some { name := "infrastructure", displayName := "Infrastructure",
           order := 2, defaults := [] }
  else if c = "media" then
    some { name := "media", displayName := "Media", order := 5, defaults := [] }
  else none

/-- DFS visit state of `stacks.CycleDetector` (0, 1, 2 in the source). -/
inductive VState where
  | unvisited
  | visiting
  | visited
deriving DecidableEq

/-- The visit-state map; a missing key reads as `unvisited`, exactly like
the zero value of the Go state map. -/
def StMap : Type := String → VState

/-- Pointwise state update (`d.state[n] = v`). -/
def updSt (st : StMap) (n : String) (v : VState) : StMap :=
  fun m => if m = n then v else st m

/-- `extractCycle`: the suffix of the DFS path from the first occurrence
of the back-edge target; the whole path when the target is absent (the
source comments this case as unreachable). -/
def extractCycle (path : List String) (dep : String) : List String :=
  if dep ∈ path then path.dropWhile (fun x => decide (x ≠ dep)) else path

mutual

/-- The recursive `dfs` of `stacks/cycles.go`, with explicit state and
path, and a fuel parameter bounding the recursion depth (the Go recursion
has none; fuel sufficiency is proved separately).  Returns `none` on fuel
exhaustion, otherwise the new state, the new path and the found cycle. -/
def dfsF (fuel : Nat) (adj : String → List String) (st : StMap)
    (path : List String) (node : String) :
    Option (StMap × List String × Option (List String)) :=
  match fuel with
  | 0 => none
  | fuel' + 1 =>
    match dfsListF fuel' adj (updSt st node .visiting) (path ++ [node])
        (adj node) with
    | none => none
    | some (st2, path2, some cyc) => some (st2, path2, some cyc)
    | some (st2, path2, none) =>
      some (updSt st2 node .visited, path2.dropLast, none)
termination_by (fuel, 0)

/-- The dependency loop inside `dfs`: a `visiting` dependency is a back
edge yielding the extracted cycle; an `unvisited` dependency is explored
recursively; a `visited` dependency is skipped. -/
def dfsListF (fuel : Nat) (adj : String → List String) (st : StMap)
    (path : List String) (deps : List String) :
    Option (StMap × List String × Option (List String)) :=
  match deps with
  | [] => some (st, path, none)
  | dep :: rest =>
    match st dep with
    | .visiting => some (st, path, some (extractCycle path dep))
    | .unvisited =>
      match dfsF fuel adj st path dep with
      | none => none
      | some (st2, path2, some cyc) => some (st2, path2, some cyc)
      | some (st2, path2, none) => dfsListF fuel adj st2 path2 rest
    | .visited => dfsListF fuel adj st path rest
termination_by (fuel, deps.length + 1)

end

/-- The outer loop of `DetectCycles`: try a DFS from every node, in the
(arbitrary) enumeration order of the Go graph map, collecting found
cycles; state and path persist across iterations as in the source. -/
def detectLoop (fuel : Nat) (adj : String → List String) :
    StMap → List String → List String →
    Option (StMap × List String × List (List String))
  | st, path, [] => some (st, path, [])
  | st, path, k :: ks =>
    match st k with
    | .unvisited =>
      match dfsF fuel adj st path k with
      | none => none
      | some (st2, path2, ocyc) =>
        match detectLoop fuel adj st2 path2 ks with
        | none => none
        | some (st3, path3, cycles) =>
          some (st3, path3,
            match ocyc with
            | some c => c :: cycles
            | none => cycles)
    | .visiting => detectLoop fuel adj st path ks
    | .visited => detectLoop fuel adj st path ks

/-- `NewCycleDetector`: build the adjacency map of the enabled stacks,
loading each stack (`graph[name] = stack.Requires`). -/
def buildGraph {V : Type} (env : Env V) :
    List String → Except String (SMap (List String))
  | [] => .ok SMap.empty
  | name :: rest =>
    match loadStack env name with
    | .error e => .error e
    | .ok stack =>
      match buildGraph env rest with
      | .error e => .error e
      | .ok g => .ok (g.set name stack.requires)

/-- Adjacency lookup `d.graph[node]`, with the Go zero value (nil) for a
missing key. -/
def adjOf (g : SMap (List String)) (n : String) : List String :=
  (SMap.get? g n).getD []

/-- All nodes the DFS can ever touch: the graph keys plus every listed
dependency. -/
def graphUniv (g : SMap (List String)) : List String :=
  SMap.keys g ++ (g.map Prod.snd).flatten

/-- Fuel sufficient for the detector on graph `g`. -/
def cdFuel (g : SMap (List String)) : Nat := (graphUniv g).length + 1

/-- `DetectCycles` on graph `g`, visiting start nodes in the enumeration
order `keyOrder` (Go map iteration order is unspecified; the theorems
hold for every enumeration). -/
def DetectCycles (g : SMap (List String)) (keyOrder : List String) :
    Option (List (List String)) :=
  match detectLoop (cdFuel g) (adjOf g) (fun _ => VState.unvisited) []
      keyOrder with
  | none => none
  | some (_, _, cycles) => some cycles

/-- Errors of `stacks.ValidateDependencies`. -/
inductive DepValErr where
  | loadFailed (msg : String)
  | missingDep (stackName depName : String)
  | dependencyCycle (cycle : List String)
  | fuelExhausted
deriving DecidableEq

/-- The presence loop of `stacks.ValidateDependencies`: every requirement
of every enabled stack must itself be enabled. -/
def checkDepsEnabled {V : Type} (env : Env V) (enabledAll : List String) :
    List String → Except DepValErr Unit
  | [] => .ok ()
  | name :: rest =>
    match loadStack env name with
    | .error e => .error (.loadFailed e)
    | .ok stack =>
      match stack.requires.find?
          (fun dep => !(EnabledStacksMap enabledAll dep)) with
      | some dep => .error (.missingDep name dep)
      | none => checkDepsEnabled env enabledAll rest

/-- `stacks.ValidateDependencies`: presence check, then cycle detection;
the first found cycle is reported.  `keyOrder` is the enumeration order
of the Go graph map (unspecified between runs); `fuelExhausted` is an
artifact of the fuel-based embedding and is proved unreachable. -/
def ValidateDependencies {V : Type} (env : Env V)
    (enabledStacks keyOrder : List String) : Except DepValErr Unit :=
  match checkDepsEnabled env enabledStacks enabledStacks with
  | .error e => .error e
  | .ok _ =>
    match buildGraph env enabledStacks with
    | .error e => .error (.loadFailed e)
    | .ok g =>
      match DetectCycles g keyOrder with
      | none => .error .fuelExhausted
      | some [] => .ok ()
      | some (c :: _) => .error (.dependencyCycle c)

/-- A genuine directed cycle of the graph: a nonempty node list whose
consecutive elements are edges and whose last element has an edge back to
the first. -/
def IsCycleList (adj : String → List String) : List String → Prop
  | [] => False
  | a :: rest =>
    List.Chain (fun x y => y ∈ adj x) a rest ∧
      a ∈ adj ((a :: rest).getLast (List.cons_ne_nil a rest))

instance (adj : String → List String) :
    ∀ c, Decidable (IsCycleList adj c)
  | [] => isFalse (fun h => h)
  | a :: rest =>
    inferInstanceAs (Decidable (List.Chain (fun x y => y ∈ adj x) a rest ∧
      a ∈ adj ((a :: rest).getLast (List.cons_ne_nil a rest))))

/-- State evolution of a completed (no-cycle) DFS run: visited states are
preserved, the visiting set is unchanged, and no state returns to
unvisited. -/
def Advances (st st' : StMap) : Prop :=
  (∀ x, st x = .visited → st' x = .visited) ∧
  (∀ x, st' x = .visiting ↔ st x = .visiting) ∧
  (∀ x, st' x = .unvisited → st x = .unvisited)

/-- Witness of topological well-foundedness of the visited region: a rank
function decreasing along edges out of visited nodes, all of whose
dependencies are themselves visited.  A completed no-cycle DFS run
preserves it. -/
def GoodRank (adj : String → List String) (st : StMap) : Prop :=
  ∃ r : String → Nat, ∃ B : Nat,
    (∀ x, st x = .visited → r x < B) ∧
    (∀ x, st x = .visited → ∀ d ∈ adj x, st d = .visited ∧ r d < r x)

/-- Unvisited count over a fixed universe of nodes. -/
def countU (st : StMap) (U : List String) : Nat :=
  U.countP (fun x => decide (st x = .unvisited))

def c2ManA : StackManifest CVal :=
  { name := "a", category := "apps", requires := ["b"],
    services := ["asvc"], vars := [] }

def c2ManB : StackManifest CVal :=
  { name := "b", category := "apps", requires := ["a"],
    services := ["bsvc"], vars := [] }

def c2Env : Env CVal := fun n =>
  if n = "a" then some c2ManA
  else if n = "b" then some c2ManB
  else none

def c2Graph : SMap (List String) :=
  (SMap.empty.set "b" ["a"]).set "a" ["b"]

theorem SMap.get?_filter_ne {V : Type} (m : SMap V) (k k' : String) (h : k ≠ k') :
    SMap.get? (List.filter (fun p => decide (p.1 ≠ k)) m) k' = SMap.get? m k' := by
  induction m with
  | nil => rfl
  | cons p rest ih =>
    obtain ⟨pk, pv⟩ := p
    rw [List.filter_cons]
    by_cases hp : pk = k
    · rw [show (decide ((pk, pv).1 ≠ k)) = false by simp [hp]]
      rw [if_neg (by simp)]
      rw [ih]
      rw [SMap.get?, if_neg (show pk ≠ k' by rw [hp]; exact h)]
    · rw [show (decide ((pk, pv).1 ≠ k)) = true by simp [hp]]
      rw [if_pos rfl]
      rw [SMap.get?, SMap.get?]
      by_cases hq : pk = k'
      · rw [if_pos hq, if_pos hq]
      · rw [if_neg hq, if_neg hq]
        exact ih

theorem SMap.get?_set {V : Type} (m : SMap V) (k : String) (v : V) (k' : String) :
    SMap.get? (m.set k v) k' = if k = k' then some v else SMap.get? m k' := by
  show SMap.get? ((k, v) :: List.filter (fun p => decide (p.1 ≠ k)) m) k' = _
  by_cases h : k = k'
  · simp [SMap.get?, h]
  · rw [SMap.get?, if_neg h, if_neg h]
    exact SMap.get?_filter_ne m k k' h

theorem SMap.get?_mem_keys {V : Type} (m : SMap V) (k : String) (v : V)
    (h : SMap.get? m k = some v) : k ∈ SMap.keys m := by
  induction m with
  | nil => simp [SMap.get?] at h
  | cons p rest ih =>
    obtain ⟨pk, pv⟩ := p
    rw [SMap.get?] at h
    by_cases hp : pk = k
    · simp [SMap.keys, hp]
    · rw [if_neg hp] at h
      simp only [SMap.keys, List.map_cons, List.mem_cons]
      right
      exact ih h

theorem SMap.get?_eq_none_of_not_mem {V : Type} (m : SMap V) (k : String)
    (h : k ∉ SMap.keys m) : SMap.get? m k = none := by
  induction m with
  | nil => rfl
  | cons p rest ih =>
    obtain ⟨pk, pv⟩ := p
    simp only [SMap.keys, List.map_cons, List.mem_cons, not_or] at h
    rw [SMap.get?, if_neg (Ne.symm h.1)]
    exact ih h.2

theorem SMap.mem_keys_get? {V : Type} (m : SMap V) (k : String)
    (h : k ∈ SMap.keys m) : ∃ v, SMap.get? m k = some v := by
  induction m with
  | nil => simp [SMap.keys] at h
  | cons p rest ih =>
    obtain ⟨pk, pv⟩ := p
    by_cases hp : pk = k
    · exact ⟨pv, by rw [SMap.get?, if_pos hp]⟩
    · simp only [SMap.keys, List.map_cons, List.mem_cons] at h
      rcases h with h | h
      · exact absurd h.symm hp
      · obtain ⟨v, hv⟩ := ih h
        exact ⟨v, by rw [SMap.get?, if_neg hp]; exact hv⟩

/-- Inserting all bindings of a duplicate-free map `src` overrides `dst`
exactly on the keys of `src`. -/
theorem SMap.get?_insertAll {V : Type} (src : SMap V) (dst : SMap V)
    (hnd : src.NodupKeys) (k : String) :
    SMap.get? (dst.insertAll src) k = (SMap.get? src k).or (SMap.get? dst k) := by
  induction src generalizing dst with
  | nil => simp [SMap.insertAll, SMap.get?, Option.or]
  | cons p rest ih =>
    obtain ⟨pk, pv⟩ := p
    have hnd' : SMap.NodupKeys rest := by
      simpa [SMap.NodupKeys] using (List.nodup_cons.mp hnd).2
    have hp1 : pk ∉ rest.map Prod.fst := by
      simpa [SMap.NodupKeys] using (List.nodup_cons.mp hnd).1
    show SMap.get? (SMap.insertAll (dst.set pk pv) rest) k = _
    rw [ih (dst.set pk pv) hnd']
    by_cases hk : pk = k
    · have hnone : SMap.get? rest k = none := by
        apply SMap.get?_eq_none_of_not_mem
        rw [← hk]
        exact hp1
      rw [hnone, SMap.get?_set, if_pos hk, SMap.get?, if_pos hk]
      simp [Option.or]
    · rw [SMap.get?_set, if_neg hk, SMap.get?, if_neg hk]

theorem SMap.mem_keys_iff {V : Type} (m : SMap V) (k : String) :
    k ∈ SMap.keys m ↔ ∃ v, SMap.get? m k = some v := by
  constructor
  · exact SMap.mem_keys_get? m k
  · rintro ⟨v, hv⟩
    exact SMap.get?_mem_keys m k v hv

theorem SMap.contains_iff {V : Type} (m : SMap V) (k : String) :
    m.contains k = true ↔ k ∈ SMap.keys m := by
  rw [SMap.contains, Option.isSome_iff_exists, SMap.mem_keys_iff]

theorem SMap.mem_keys_set {V : Type} (m : SMap V) (k : String) (v : V)
    (k' : String) : k' ∈ SMap.keys (m.set k v) ↔ k' = k ∨ k' ∈ SMap.keys m := by
  rw [SMap.mem_keys_iff, SMap.mem_keys_iff]
  constructor
  · rintro ⟨w, hw⟩
    rw [SMap.get?_set] at hw
    by_cases hk : k = k'
    · exact Or.inl hk.symm
    · rw [if_neg hk] at hw
      exact Or.inr ⟨w, hw⟩
  · rintro (hk | ⟨w, hw⟩)
    · exact ⟨v, by rw [SMap.get?_set, if_pos hk.symm]⟩
    · by_cases hk : k = k'
      · exact ⟨v, by rw [SMap.get?_set, if_pos hk]⟩
      · exact ⟨w, by rw [SMap.get?_set, if_neg hk]; exact hw⟩

theorem mergeServicesGo_ok_keys (l : SMap CVal) :
    ∀ merged out, mergeServicesGo merged l = .ok out →
      ∀ s, s ∈ SMap.keys out ↔ s ∈ SMap.keys merged ∨ s ∈ SMap.keys l := by
  induction l with
  | nil =>
    intro merged out h s
    rw [mergeServicesGo] at h
    cases h
    simp [SMap.keys]
  | cons p rest ih =>
    obtain ⟨name, svc⟩ := p
    intro merged out h s
    rw [mergeServicesGo] at h
    by_cases hc : merged.contains name
    · rw [if_pos hc] at h
      cases h
    · rw [if_neg hc] at h
      rw [ih (merged.set name svc) out h s, SMap.mem_keys_set]
      simp only [SMap.keys, List.map_cons, List.mem_cons]
      tauto

theorem mergeServicesGo_ok_disjoint (l : SMap CVal) :
    ∀ merged out, mergeServicesGo merged l = .ok out →
      ∀ s ∈ SMap.keys l, s ∉ SMap.keys merged := by
  induction l with
  | nil =>
    intro merged out _ s hs
    simp [SMap.keys] at hs
  | cons p rest ih =>
    obtain ⟨name, svc⟩ := p
    intro merged out h s hs
    rw [mergeServicesGo] at h
    by_cases hc : merged.contains name
    · rw [if_pos hc] at h
      cases h
    · rw [if_neg hc] at h
      simp only [SMap.keys, List.map_cons, List.mem_cons] at hs
      rcases hs with hs | hs
      · subst hs
        intro hmem
        exact hc ((SMap.contains_iff merged s).mpr hmem)
      · intro hmem
        exact ih (merged.set name svc) out h s hs
          ((SMap.mem_keys_set merged name svc s).mpr (Or.inr hmem))

theorem mergeServicesGo_error_shape (l : SMap CVal) (hnd : l.NodupKeys) :
    ∀ merged e, mergeServicesGo merged l = .error e →
      ∃ s, e = "duplicate service name: " ++ s ∧
        s ∈ SMap.keys l ∧ s ∈ SMap.keys merged := by
  induction l with
  | nil =>
    intro merged e h
    rw [mergeServicesGo] at h
    cases h
  | cons p rest ih =>
    obtain ⟨name, svc⟩ := p
    have hnd' : SMap.NodupKeys rest := by
      simpa [SMap.NodupKeys] using (List.nodup_cons.mp hnd).2
    have hname : name ∉ rest.map Prod.fst := by
      simpa [SMap.NodupKeys] using (List.nodup_cons.mp hnd).1
    intro merged e h
    rw [mergeServicesGo] at h
    by_cases hc : merged.contains name
    · rw [if_pos hc] at h
      refine ⟨name, (Except.error.inj h).symm, by simp [SMap.keys], ?_⟩
      exact (SMap.contains_iff merged name).mp hc
    · rw [if_neg hc] at h
      obtain ⟨s, hse, hsl, hsm⟩ := ih hnd' (merged.set name svc) e h
      refine ⟨s, hse, List.mem_cons_of_mem name hsl, ?_⟩
      rcases (SMap.mem_keys_set merged name svc s).mp hsm with hs | hs
      · exact absurd (hs ▸ hsl) hname
      · exact hs

theorem mergeServicesGo_ok_of_disjoint (l : SMap CVal) (hnd : l.NodupKeys) :
    ∀ merged, (∀ k ∈ SMap.keys l, k ∉ SMap.keys merged) →
      ∃ out, mergeServicesGo merged l = .ok out := by
  induction l with
  | nil =>
    intro merged _
    exact ⟨merged, rfl⟩
  | cons p rest ih =>
    obtain ⟨name, svc⟩ := p
    have hnd' : SMap.NodupKeys rest := by
      simpa [SMap.NodupKeys] using (List.nodup_cons.mp hnd).2
    have hname : name ∉ rest.map Prod.fst := by
      simpa [SMap.NodupKeys] using (List.nodup_cons.mp hnd).1
    intro merged hdisj
    have hnc : ¬ merged.contains name = true := by
      intro hc
      exact hdisj name (List.mem_cons_self name _)
        ((SMap.contains_iff merged name).mp hc)
    have hdisj' : ∀ k ∈ SMap.keys rest, k ∉ SMap.keys (merged.set name svc) := by
      intro k hk
      rw [SMap.mem_keys_set]
      rintro (hkn | hkm)
      · exact absurd (hkn ▸ hk) hname
      · exact hdisj k (List.mem_cons_of_mem name hk) hkm
    obtain ⟨out, hout⟩ := ih hnd' (merged.set name svc) hdisj'
    exact ⟨out, by rw [mergeServicesGo, if_neg hnc]; exact hout⟩

theorem mergeOneFile_ok_iff (acc : ComposeFile) (warns : List MergeWarning)
    (f : ComposeFile) (acc2 : ComposeFile) (warns2 : List MergeWarning) :
    mergeOneFile acc warns f = .ok (acc2, warns2) ↔
      ∃ svcs, mergeServicesGo acc.services f.services = .ok svcs ∧
        acc2 = { services := svcs,
                 volumes := (mergeVolumesGo acc.volumes warns f.volumes).1,
                 networks := (mergeNetworksGo acc.networks
                   (mergeVolumesGo acc.volumes warns f.volumes).2 f.networks).1 } ∧
        warns2 = (mergeNetworksGo acc.networks
          (mergeVolumesGo acc.volumes warns f.volumes).2 f.networks).2 := by
  rw [mergeOneFile]
  cases hs : mergeServicesGo acc.services f.services with
  | error e =>
    simp only []
    constructor
    · intro h
      cases h
    · rintro ⟨svcs, hsv, _, _⟩
      cases hsv
  | ok svcs =>
    simp only []
    constructor
    · intro h
      have h2 := Except.ok.inj h
      exact ⟨svcs, rfl, (congrArg Prod.fst h2).symm, (congrArg Prod.snd h2).symm⟩
    · rintro ⟨svcs', hsv, hacc, hw⟩
      have hsv' := Except.ok.inj hsv
      subst hsv'
      rw [hacc, hw]

theorem mergeOneFile_error_iff (acc : ComposeFile) (warns : List MergeWarning)
    (f : ComposeFile) (e : String) :
    mergeOneFile acc warns f = .error e ↔
      mergeServicesGo acc.services f.services = .error e := by
  rw [mergeOneFile]
  cases hs : mergeServicesGo acc.services f.services with
  | error e' =>
    simp only []
    constructor
    · intro h
      exact (Except.error.inj h) ▸ rfl
    · intro h
      exact (Except.error.inj h) ▸ rfl
  | ok svcs =>
    simp only []
    constructor
    · intro h
      cases h
    · intro h
      cases h

theorem mergeFilesGo_ok_spec (files : List ComposeFile) :
    ∀ acc warns out w, mergeFilesGo acc warns files = .ok (out, w) →
      (∀ s, s ∈ SMap.keys out.services ↔
        (s ∈ SMap.keys acc.services ∨ ∃ f ∈ files, s ∈ SMap.keys f.services)) ∧
      (∀ s, s ∈ SMap.keys acc.services → ∀ f ∈ files, s ∉ SMap.keys f.services) ∧
      (∀ s, files.countP (fun f => f.services.contains s) ≤ 1) := by
  induction files with
  | nil =>
    intro acc warns out w h
    rw [mergeFilesGo] at h
    have h2 := Except.ok.inj h
    have hacc : acc = out := congrArg Prod.fst h2
    subst hacc
    refine ⟨fun s => by simp, ?_, fun s => by simp⟩
    intro s _ f hf
    exact absurd hf (List.not_mem_nil f)
  | cons f rest ih =>
    intro acc warns out w h
    rw [mergeFilesGo] at h
    cases hof : mergeOneFile acc warns f with
    | error e =>
      rw [hof] at h
      cases h
    | ok p =>
      obtain ⟨acc2, warns2⟩ := p
      rw [hof] at h
      obtain ⟨svcs, hs, hacc2, _⟩ := (mergeOneFile_ok_iff acc warns f acc2 warns2).mp hof
      obtain ⟨ih1, ih2, ih3⟩ := ih acc2 warns2 out w h
      have hkeys2 : ∀ s, s ∈ SMap.keys acc2.services ↔
          s ∈ SMap.keys acc.services ∨ s ∈ SMap.keys f.services := by
        intro s
        rw [hacc2]
        exact mergeServicesGo_ok_keys f.services acc.services svcs hs s
      refine ⟨?_, ?_, ?_⟩
      · intro s
        rw [ih1 s, hkeys2 s]
        simp only [List.mem_cons]
        constructor
        · rintro ((ha | hf') | ⟨g, hg, hgs⟩)
          · exact Or.inl ha
          · exact Or.inr ⟨f, Or.inl rfl, hf'⟩
          · exact Or.inr ⟨g, Or.inr hg, hgs⟩
        · rintro (ha | ⟨g, (rfl | hg), hgs⟩)
          · exact Or.inl (Or.inl ha)
          · exact Or.inl (Or.inr hgs)
          · exact Or.inr ⟨g, hg, hgs⟩
      · intro s hsacc g hg
        rcases List.mem_cons.mp hg with rfl | hg'
        · intro hsg
          exact mergeServicesGo_ok_disjoint g.services acc.services svcs hs s hsg hsacc
        · exact ih2 s ((hkeys2 s).mpr (Or.inl hsacc)) g hg'
      · intro s
        rw [List.countP_cons]
        by_cases hps : f.services.contains s = true
        · have hsf : s ∈ SMap.keys f.services := (SMap.contains_iff _ s).mp hps
          have hrest0 : rest.countP (fun g => g.services.contains s) = 0 := by
            rw [List.countP_eq_zero]
            intro g hg
            intro hgc
            exact ih2 s ((hkeys2 s).mpr (Or.inr hsf)) g hg
              ((SMap.contains_iff _ s).mp hgc)
          simp [hps, hrest0]
        · have hfalse : (fun g => SMap.contains g.services s) f = false := by
            simpa using hps
          have := ih3 s
          simp [hfalse]
          omega

theorem mergeFilesGo_error_shape (files : List ComposeFile)
    (hnd : ∀ f ∈ files, f.services.NodupKeys) :
    ∀ acc warns e, mergeFilesGo acc warns files = .error e →
      ∃ s, e = "duplicate service name: " ++ s ∧
        ((s ∈ SMap.keys acc.services ∧ ∃ f ∈ files, s ∈ SMap.keys f.services) ∨
          2 ≤ files.countP (fun f => f.services.contains s)) := by
  induction files with
  | nil =>
    intro acc warns e h
    rw [mergeFilesGo] at h
    cases h
  | cons f rest ih =>
    intro acc warns e h
    rw [mergeFilesGo] at h
    cases hof : mergeOneFile acc warns f with
    | error e' =>
      rw [hof] at h
      have he : e' = e := Except.error.inj h
      have hserr : mergeServicesGo acc.services f.services = .error e' :=
        (mergeOneFile_error_iff acc warns f e').mp hof
      obtain ⟨s, hse, hsf, hsacc⟩ := mergeServicesGo_error_shape f.services
        (hnd f (List.mem_cons_self f rest)) acc.services e' hserr
      exact ⟨s, he ▸ hse, Or.inl ⟨hsacc, f, List.mem_cons_self f rest, hsf⟩⟩
    | ok p =>
      obtain ⟨acc2, warns2⟩ := p
      rw [hof] at h
      obtain ⟨svcs, hs, hacc2, _⟩ := (mergeOneFile_ok_iff acc warns f acc2 warns2).mp hof
      obtain ⟨s, hse, hrest⟩ :=
        ih (fun g hg => hnd g (List.mem_cons_of_mem f hg)) acc2 warns2 e h
      refine ⟨s, hse, ?_⟩
      rcases hrest with ⟨hsacc2, g, hg, hsg⟩ | hcnt
      · have hsplit : s ∈ SMap.keys acc.services ∨ s ∈ SMap.keys f.services := by
          have := hacc2 ▸ hsacc2
          exact (mergeServicesGo_ok_keys f.services acc.services svcs hs s).mp this
        rcases hsplit with hsacc | hsf
        · exact Or.inl ⟨hsacc, g, List.mem_cons_of_mem f hg, hsg⟩
        · right
          rw [List.countP_cons]
          have h1 : f.services.contains s = true :=
            (SMap.contains_iff _ s).mpr hsf
          have h2 : 0 < rest.countP (fun g => g.services.contains s) :=
            List.countP_pos_iff.mpr ⟨g, hg, (SMap.contains_iff _ s).mpr hsg⟩
          rw [h1, if_pos rfl]
          omega
      · right
        rw [List.countP_cons]
        omega

/-- C5: merging compose fragments fails with a duplicate-service error
naming the offending service whenever two input fragments define a
service with the same name, and on success every service name of the
output appears in exactly one input fragment. -/
theorem mergeComposeFiles_service_uniqueness (files : List ComposeFile)
    (hnd : ∀ f ∈ files, f.services.NodupKeys) :
    ((∃ s, 2 ≤ files.countP (fun f => f.services.contains s)) →
      ∃ s, MergeComposeFiles files = .error ("duplicate service name: " ++ s) ∧
        2 ≤ files.countP (fun f => f.services.contains s)) ∧
    (∀ out warns, MergeComposeFiles files = .ok (out, warns) →
      ∀ s, s ∈ SMap.keys out.services →
        files.countP (fun f => f.services.contains s) = 1) := by
  constructor
  · rintro ⟨s, hs⟩
    cases hres : MergeComposeFiles files with
    | ok p =>
      obtain ⟨out, w⟩ := p
      have := (mergeFilesGo_ok_spec files _ _ out w hres).2.2 s
      omega
    | error e =>
      obtain ⟨s', hse, hshape⟩ := mergeFilesGo_error_shape files hnd _ _ e hres
      rcases hshape with ⟨hacc, _⟩ | hcnt
      · simp [SMap.keys, SMap.empty] at hacc
      · exact ⟨s', by rw [hse], hcnt⟩
  · intro out warns hres s hsout
    obtain ⟨h1, _, h3⟩ := mergeFilesGo_ok_spec files _ _ out warns hres
    rcases (h1 s).mp hsout with hacc | ⟨f, hf, hsf⟩
    · simp [SMap.keys, SMap.empty] at hacc
    · have hpos : 0 < files.countP (fun f => f.services.contains s) :=
        List.countP_pos_iff.mpr ⟨f, hf, (SMap.contains_iff _ s).mpr hsf⟩
      have := h3 s
      omega

/-- Witness for C5 at a concrete input: two fragments both define `app`,
and the merge fails naming `app`. -/
theorem mergeComposeFiles_service_uniqueness_witness :
    ∃ s, MergeComposeFiles [c5FragA, c5FragB] =
        .error ("duplicate service name: " ++ s) ∧
      2 ≤ [c5FragA, c5FragB].countP (fun f => f.services.contains s) := by
  exact (mergeComposeFiles_service_uniqueness [c5FragA, c5FragB] (by decide)).1
    ⟨"app", by decide⟩

theorem mergeVolumesGo_warns_mono (l : SMap CVal) :
    ∀ merged warns w, w ∈ warns → w ∈ (mergeVolumesGo merged warns l).2 := by
  induction l with
  | nil =>
    intro merged warns w hw
    exact hw
  | cons p rest ih =>
    obtain ⟨name, vol⟩ := p
    intro merged warns w hw
    rw [mergeVolumesGo]
    split
    · rename_i existing hm
      by_cases hb : CVal.beq existing vol = true
      · rw [if_pos hb]
        exact ih merged _ w (List.mem_append_left _ hw)
      · rw [if_neg hb]
        exact ih merged _ w (List.mem_append_left _ (List.mem_append_left _ hw))
    · exact ih (merged.set name vol) warns w hw

theorem mergeVolumesGo_warns_shape (l : SMap CVal) :
    ∀ merged warns w, w ∈ (mergeVolumesGo merged warns l).2 →
      w ∈ warns ∨ ∃ nm, w = .duplicateVolume nm ∨ w = .conflictingVolume nm := by
  induction l with
  | nil =>
    intro merged warns w hw
    exact Or.inl hw
  | cons p rest ih =>
    obtain ⟨name, vol⟩ := p
    intro merged warns w hw
    rw [mergeVolumesGo] at hw
    split at hw
    · rename_i existing hm
      by_cases hb : CVal.beq existing vol = true
      · rw [if_pos hb] at hw
        rcases ih merged _ w hw with hw' | hsh
        · rcases List.mem_append.mp hw' with hw'' | hw''
          · exact Or.inl hw''
          · exact Or.inr ⟨name, Or.inl (List.mem_singleton.mp hw'')⟩
        · exact Or.inr hsh
      · rw [if_neg hb] at hw
        rcases ih merged _ w hw with hw' | hsh
        · rcases List.mem_append.mp hw' with hw'' | hw''
          · rcases List.mem_append.mp hw'' with h3 | h3
            · exact Or.inl h3
            · exact Or.inr ⟨name, Or.inl (List.mem_singleton.mp h3)⟩
          · exact Or.inr ⟨name, Or.inr (List.mem_singleton.mp hw'')⟩
        · exact Or.inr hsh
    · exact ih (merged.set name vol) warns w hw

theorem mergeNetworksGo_not_mem (n : String) (l : SMap CVal)
    (hn : n ∉ SMap.keys l) : ∀ merged warns,
    SMap.get? (mergeNetworksGo merged warns l).1 n = SMap.get? merged n ∧
    (MergeWarning.duplicateNetwork n ∈ (mergeNetworksGo merged warns l).2 ↔
      MergeWarning.duplicateNetwork n ∈ warns) := by
  induction l with
  | nil =>
    intro merged warns
    exact ⟨rfl, Iff.rfl⟩
  | cons p rest ih =>
    obtain ⟨name, net⟩ := p
    have hne : name ≠ n := by
      intro h
      apply hn
      rw [← h]
      exact List.mem_cons_self _ _
    have hn' : n ∉ SMap.keys rest := fun h => hn (List.mem_cons_of_mem _ h)
    intro merged warns
    rw [mergeNetworksGo]
    split
    · rename_i existing hm
      by_cases h1 : (isExternalNet net && !isExternalNet existing) = true
      · rw [if_pos h1]
        exact ih hn' merged warns
      · rw [if_neg h1]
        by_cases h2 : (!isExternalNet net && isExternalNet existing) = true
        · rw [if_pos h2]
          have hrec := ih hn' (merged.set name net) warns
          rw [SMap.get?_set, if_neg hne] at hrec
          exact hrec
        · rw [if_neg h2]
          by_cases h3 : (!isExternalNet net && !isExternalNet existing) = true
          · rw [if_pos h3]
            have hrec := ih hn' merged (warns ++ [.duplicateNetwork name])
            refine ⟨hrec.1, ?_⟩
            rw [hrec.2]
            simp [Ne.symm hne]
          · rw [if_neg h3]
            exact ih hn' merged warns
    · rename_i hm
      have hrec := ih hn' (merged.set name net) warns
      rw [SMap.get?_set, if_neg hne] at hrec
      exact hrec

theorem mergeNetworksGo_mem (n : String) (v : CVal) (l : SMap CVal) :
    l.NodupKeys → SMap.get? l n = some v → ∀ merged warns,
      (∀ ex, SMap.get? merged n = some ex →
        SMap.get? (mergeNetworksGo merged warns l).1 n =
          some (if !isExternalNet v && isExternalNet ex then v else ex) ∧
        (MergeWarning.duplicateNetwork n ∈ (mergeNetworksGo merged warns l).2 ↔
          (MergeWarning.duplicateNetwork n ∈ warns ∨
            (isExternalNet v = false ∧ isExternalNet ex = false)))) ∧
      (SMap.get? merged n = none →
        SMap.get? (mergeNetworksGo merged warns l).1 n = some v ∧
        (MergeWarning.duplicateNetwork n ∈ (mergeNetworksGo merged warns l).2 ↔
          MergeWarning.duplicateNetwork n ∈ warns)) := by
  induction l with
  | nil =>
    intro _ hv
    simp [SMap.get?] at hv
  | cons p rest ih =>
    obtain ⟨name, net⟩ := p
    intro hnd hv merged warns
    have hnd' : SMap.NodupKeys rest := by
      simpa [SMap.NodupKeys] using (List.nodup_cons.mp hnd).2
    have hname0 : name ∉ rest.map Prod.fst := by
      simpa [SMap.NodupKeys] using (List.nodup_cons.mp hnd).1
    by_cases hname : name = n
    · subst hname
      rw [SMap.get?, if_pos rfl] at hv
      have hvnet : net = v := Option.some.inj hv
      subst hvnet
      have hnr : name ∉ SMap.keys rest := hname0
      constructor
      · intro ex hex
        rw [mergeNetworksGo]
        split
        · rename_i existing hm
          have hexeq : existing = ex := by
            rw [hm] at hex
            exact Option.some.inj hex
          subst hexeq
          by_cases h1 : (isExternalNet net && !isExternalNet existing) = true
          · rw [if_pos h1]
            have hbnet : isExternalNet net = true := (Bool.and_eq_true_iff.mp h1).1
            have hbex : isExternalNet existing = false := by
              have := (Bool.and_eq_true_iff.mp h1).2
              simpa using this
            have hrec := mergeNetworksGo_not_mem name rest hnr merged warns
            constructor
            · rw [hrec.1, hm,
                show (!isExternalNet net && isExternalNet existing) = false by
                  rw [hbnet]; rfl]
              simp
            · rw [hrec.2]
              simp [hbnet]
          · rw [if_neg h1]
            by_cases h2 : (!isExternalNet net && isExternalNet existing) = true
            · rw [if_pos h2]
              have hbex : isExternalNet existing = true :=
                (Bool.and_eq_true_iff.mp h2).2
              have hrec := mergeNetworksGo_not_mem name rest hnr
                (merged.set name net) warns
              rw [SMap.get?_set, if_pos rfl] at hrec
              constructor
              · rw [hrec.1, h2]
                simp
              · rw [hrec.2]
                simp [hbex]
            · rw [if_neg h2]
              by_cases h3 : (!isExternalNet net && !isExternalNet existing) = true
              · rw [if_pos h3]
                have hbnet : isExternalNet net = false := by
                  have := (Bool.and_eq_true_iff.mp h3).1
                  simpa using this
                have hbex : isExternalNet existing = false := by
                  have := (Bool.and_eq_true_iff.mp h3).2
                  simpa using this
                have hrec := mergeNetworksGo_not_mem name rest hnr merged
                  (warns ++ [.duplicateNetwork name])
                constructor
                · rw [hrec.1, hm,
                    show (!isExternalNet net && isExternalNet existing) = false by
                      rw [hbnet, hbex]; rfl]
                  simp
                · rw [hrec.2]
                  simp [hbnet, hbex]
              · rw [if_neg h3]
                have hbnet : isExternalNet net = true := by
                  cases hq : isExternalNet net
                  · cases hq2 : isExternalNet existing
                    · exact absurd (by rw [hq, hq2]; rfl) h3
                    · exact absurd (by rw [hq, hq2]; rfl) h2
                  · rfl
                have hbex : isExternalNet existing = true := by
                  cases hq2 : isExternalNet existing
                  · exact absurd (by rw [hbnet, hq2]; rfl) h1
                  · rfl
                have hrec := mergeNetworksGo_not_mem name rest hnr merged warns
                constructor
                · rw [hrec.1, hm,
                    show (!isExternalNet net && isExternalNet existing) = false by
                      rw [hbnet]; rfl]
                  simp
                · rw [hrec.2]
                  simp [hbnet]
        · rename_i hm
          rw [hm] at hex
          cases hex
      · intro hex
        rw [mergeNetworksGo]
        split
        · rename_i existing hm
          rw [hm] at hex
          cases hex
        · rename_i hm
          have hrec := mergeNetworksGo_not_mem name rest hnr
            (merged.set name net) warns
          rw [SMap.get?_set, if_pos rfl] at hrec
          exact hrec
    · rw [SMap.get?, if_neg hname] at hv
      have hmain := ih hnd' hv
      constructor
      · intro ex hex
        rw [mergeNetworksGo]
        split
        · rename_i existing hm
          by_cases h1 : (isExternalNet net && !isExternalNet existing) = true
          · rw [if_pos h1]
            exact (hmain merged warns).1 ex hex
          · rw [if_neg h1]
            by_cases h2 : (!isExternalNet net && isExternalNet existing) = true
            · rw [if_pos h2]
              refine (hmain (merged.set name net) warns).1 ex ?_
              rw [SMap.get?_set, if_neg hname]
              exact hex
            · rw [if_neg h2]
              by_cases h3 : (!isExternalNet net && !isExternalNet existing) = true
              · rw [if_pos h3]
                have hrec := (hmain merged (warns ++ [.duplicateNetwork name])).1 ex hex
                refine ⟨hrec.1, ?_⟩
                rw [hrec.2]
                simp [Ne.symm hname]
              · rw [if_neg h3]
                exact (hmain merged warns).1 ex hex
        · rename_i hm
          refine (hmain (merged.set name net) warns).1 ex ?_
          rw [SMap.get?_set, if_neg hname]
          exact hex
      · intro hex
        rw [mergeNetworksGo]
        split
        · rename_i existing hm
          by_cases h1 : (isExternalNet net && !isExternalNet existing) = true
          · rw [if_pos h1]
            exact (hmain merged warns).2 hex
          · rw [if_neg h1]
            by_cases h2 : (!isExternalNet net && isExternalNet existing) = true
            · rw [if_pos h2]
              refine (hmain (merged.set name net) warns).2 ?_
              rw [SMap.get?_set, if_neg hname]
              exact hex
            · rw [if_neg h2]
              by_cases h3 : (!isExternalNet net && !isExternalNet existing) = true
              · rw [if_pos h3]
                have hrec := (hmain merged (warns ++ [.duplicateNetwork name])).2 hex
                refine ⟨hrec.1, ?_⟩
                rw [hrec.2]
                simp [Ne.symm hname]
              · rw [if_neg h3]
                exact (hmain merged warns).2 hex
        · rename_i hm
          refine (hmain (merged.set name net) warns).2 ?_
          rw [SMap.get?_set, if_neg hname]
          exact hex

/-- C6: when two merged fragments define a network with the same name, the
result keeps the non-external definition when exactly one of the two is
external, keeps the first definition silently when both are external, and
keeps the first definition with a duplicate-network warning when both are
non-external; in every case the merge succeeds. -/
theorem mergeComposeFiles_network_policy (f1 f2 : ComposeFile) (n : String)
    (v1 v2 : CVal)
    (hnd1 : f1.services.NodupKeys) (hnd2 : f2.services.NodupKeys)
    (hdisj : ∀ s ∈ SMap.keys f2.services, s ∉ SMap.keys f1.services)
    (hn1 : f1.networks.NodupKeys) (hn2 : f2.networks.NodupKeys)
    (hv1 : SMap.get? f1.networks n = some v1)
    (hv2 : SMap.get? f2.networks n = some v2) :
    ∃ out warns, MergeComposeFiles [f1, f2] = .ok (out, warns) ∧
      SMap.get? out.networks n =
        some (if !isExternalNet v2 && isExternalNet v1 then v2 else v1) ∧
      (MergeWarning.duplicateNetwork n ∈ warns ↔
        (isExternalNet v1 = false ∧ isExternalNet v2 = false)) := by
  obtain ⟨svcs1, hsv1⟩ : ∃ s, mergeServicesGo ([] : SMap CVal) f1.services = .ok s := by
    apply mergeServicesGo_ok_of_disjoint f1.services hnd1
    intro k _ hk
    exact (List.not_mem_nil k) hk
  obtain ⟨svcs2, hsv2⟩ : ∃ s, mergeServicesGo svcs1 f2.services = .ok s := by
    apply mergeServicesGo_ok_of_disjoint f2.services hnd2
    intro k hk hkm
    rcases (mergeServicesGo_ok_keys f1.services [] svcs1 hsv1 k).mp hkm with h | h
    · exact (List.not_mem_nil k) h
    · exact hdisj k hk h
  set V1 := mergeVolumesGo [] [] f1.volumes with hV1
  set N1 := mergeNetworksGo [] V1.2 f1.networks with hN1
  set acc1 : ComposeFile :=
    { services := svcs1, volumes := V1.1, networks := N1.1 } with hacc1
  set V2 := mergeVolumesGo acc1.volumes N1.2 f2.volumes with hV2
  set N2 := mergeNetworksGo acc1.networks V2.2 f2.networks with hN2
  set acc2 : ComposeFile :=
    { services := svcs2, volumes := V2.1, networks := N2.1 } with hacc2
  have hof1 : mergeOneFile { services := [], volumes := [], networks := [] }
      [] f1 = .ok (acc1, N1.2) := by
    apply (mergeOneFile_ok_iff _ _ _ _ _).mpr
    exact ⟨svcs1, hsv1, rfl, rfl⟩
  have hof2 : mergeOneFile acc1 N1.2 f2 = .ok (acc2, N2.2) := by
    apply (mergeOneFile_ok_iff _ _ _ _ _).mpr
    exact ⟨svcs2, hsv2, rfl, rfl⟩
  have hmerge : MergeComposeFiles [f1, f2] = .ok (acc2, N2.2) := by
    simp only [MergeComposeFiles, mergeFilesGo, hof1, hof2]
  have hn1track := (mergeNetworksGo_mem n v1 f1.networks hn1 hv1 [] V1.2).2 rfl
  have hnoV1 : MergeWarning.duplicateNetwork n ∉ V1.2 := by
    intro hmem
    rcases mergeVolumesGo_warns_shape f1.volumes [] [] _ hmem with h | ⟨nm, h | h⟩
    · exact (List.not_mem_nil _) h
    · exact MergeWarning.noConfusion h
    · exact MergeWarning.noConfusion h
  have hnoW1 : MergeWarning.duplicateNetwork n ∉ N1.2 := by
    intro hmem
    exact hnoV1 (hn1track.2.mp hmem)
  have hV2iff : MergeWarning.duplicateNetwork n ∈ V2.2 ↔
      MergeWarning.duplicateNetwork n ∈ N1.2 := by
    constructor
    · intro hmem
      rcases mergeVolumesGo_warns_shape f2.volumes acc1.volumes N1.2 _ hmem with
        h | ⟨nm, h | h⟩
      · exact h
      · exact MergeWarning.noConfusion h
      · exact MergeWarning.noConfusion h
    · intro hmem
      exact mergeVolumesGo_warns_mono f2.volumes acc1.volumes N1.2 _ hmem
  have hn2track := (mergeNetworksGo_mem n v2 f2.networks hn2 hv2
    acc1.networks V2.2).1 v1 hn1track.1
  refine ⟨acc2, N2.2, hmerge, hn2track.1, ?_⟩
  rw [hn2track.2]
  constructor
  · rintro (hmem | ⟨h2, h1⟩)
    · exact absurd (hV2iff.mp hmem) hnoW1
    · exact ⟨h1, h2⟩
  · rintro ⟨h1, h2⟩
    exact Or.inr ⟨h2, h1⟩

/-- Witness for C6 at a concrete input: the second definition is external
and the first is not, so the first (creating) definition wins, silently. -/
theorem mergeComposeFiles_network_policy_witness :
    ∃ out warns, MergeComposeFiles [c6FragA, c6FragB] = .ok (out, warns) ∧
      SMap.get? out.networks "net" =
        some (if !isExternalNet (CVal.vmap [("external", CVal.boolean true)]) &&
            isExternalNet (CVal.vmap [("driver", CVal.str "bridge")]) then
          CVal.vmap [("external", CVal.boolean true)]
        else CVal.vmap [("driver", CVal.str "bridge")]) ∧
      (MergeWarning.duplicateNetwork "net" ∈ warns ↔
        (isExternalNet (CVal.vmap [("driver", CVal.str "bridge")]) = false ∧
          isExternalNet (CVal.vmap [("external", CVal.boolean true)]) = false)) := by
  exact mergeComposeFiles_network_policy c6FragA c6FragB "net"
    (CVal.vmap [("driver", CVal.str "bridge")])
    (CVal.vmap [("external", CVal.boolean true)])
    (by decide) (by decide) (by decide) (by decide) (by decide) rfl rfl

/-- C3: the merge stage consumes the rendered fragments in Go map
iteration order over `ctx.RenderedCompose`, which is unspecified and
varies between runs; the merged result genuinely depends on that order,
so first-definition-wins outcomes are not determined by the deployment
order: two enumeration orders of the same two-fragment map yield
different merged networks. -/
theorem mergeComposeStage_order_dependent :
    ∃ outAB wAB outBA wBA,
      MergeComposeStage [c3FragA, c3FragB] = .ok (outAB, wAB) ∧
      MergeComposeStage [c3FragB, c3FragA] = .ok (outBA, wBA) ∧
      SMap.get? outAB.networks "net" = some (CVal.vmap []) ∧
      SMap.get? outBA.networks "net" =
        some (CVal.vmap [("driver", CVal.str "bridge")]) ∧
      CVal.vmap [] ≠ CVal.vmap [("driver", CVal.str "bridge")] := by
  refine ⟨_, _, _, _, rfl, rfl, rfl, rfl, ?_⟩
  intro h
  injection h with h2
  cases h2

/-- Counterexample to C8 as stated: the manifest category of stack `web`
is `tools`, but the rendering context built by the code carries the empty
string in the `category` slot, not the category loaded from the
manifest. -/
theorem renderContext_category_counterexample :
    (loadStack c8Env "web").toOption.map (fun st => st.category) = some "tools" ∧
    SMap.get? (buildTemplateContext "web" (filterServicesStageConfig c8Config)
      ["web"]).stack "category" = some (CVal.str "") ∧
    CVal.str "" ≠ CVal.str "tools" := by
  refine ⟨rfl, rfl, ?_⟩
  intro h
  injection h with h2
  exact absurd h2 (by decide)

/-- C8 (amended): for every stack, the rendering context consists of
`vars` equal to the stack's merged variable layer (the filter stage sets
FilteredVars to MergedVars), `stack` equal to the mapping binding `name`
to the stack's name and `category` to the empty string (hard-coded, not
the manifest category), and `stacks` equal to the mapping binding
`enabled` to the ordered enabled stack list. -/
theorem renderTemplatesStage_context (stackName : String) (cfg : StackConfig)
    (enabledStacks : List String) :
    (buildTemplateContext stackName (filterServicesStageConfig cfg)
      enabledStacks).vars = cfg.mergedVars ∧
    (buildTemplateContext stackName (filterServicesStageConfig cfg)
      enabledStacks).stack =
      [("name", CVal.str stackName), ("category", CVal.str "")] ∧
    (buildTemplateContext stackName (filterServicesStageConfig cfg)
      enabledStacks).allStacks =
      [("enabled", CVal.vlist (enabledStacks.map CVal.str))] :=
  ⟨rfl, rfl, rfl⟩

/-- C1: for every stack, the merged mapping of the four-layer variable
merge obeys the precedence secrets over inventory over stack vars over
category defaults, top-level key by top-level key, and a key absent from
all four layers is absent from the result. -/
theorem mergeWithCategoryDefaults_precedence {V : Type} (env : Env V) (reg : Reg V)
    (stackName : String) (stackVars inventoryVars secrets : SMap V)
    (stack : StackManifest V) (cat : Category V) (merged : SMap V)
    (hload : loadStack env stackName = .ok stack)
    (hcat : reg stack.category = some cat)
    (hnd1 : stackVars.NodupKeys) (hnd2 : inventoryVars.NodupKeys)
    (hnd3 : secrets.NodupKeys) (hnd4 : cat.defaults.NodupKeys)
    (hok : MergeWithCategoryDefaults env reg stackName stackVars inventoryVars
      secrets = .ok merged) (k : String) :
    (∀ v, SMap.get? secrets k = some v → SMap.get? merged k = some v) ∧
    (SMap.get? secrets k = none → ∀ v, SMap.get? inventoryVars k = some v →
      SMap.get? merged k = some v) ∧
    (SMap.get? secrets k = none → SMap.get? inventoryVars k = none →
      ∀ v, SMap.get? stackVars k = some v → SMap.get? merged k = some v) ∧
    (SMap.get? secrets k = none → SMap.get? inventoryVars k = none →
      SMap.get? stackVars k = none →
      SMap.get? merged k = SMap.get? cat.defaults k) := by
  have hm : SMap.get? merged k =
      (SMap.get? secrets k).or ((SMap.get? inventoryVars k).or
        ((SMap.get? stackVars k).or (SMap.get? cat.defaults k))) := by
    simp only [MergeWithCategoryDefaults, hload, hcat] at hok
    have hmg := Except.ok.inj hok
    rw [← hmg]
    rw [SMap.get?_insertAll _ _ hnd3, SMap.get?_insertAll _ _ hnd2,
      SMap.get?_insertAll _ _ hnd1, SMap.get?_insertAll _ _ hnd4]
    cases SMap.get? cat.defaults k <;> simp [SMap.empty, SMap.get?, Option.or]
  refine ⟨?_, ?_, ?_, ?_⟩
  · intro v hv
    rw [hm, hv, Option.or_some]
  · intro hs v hv
    rw [hm, hs, hv]
    simp [Option.or]
  · intro hs hi v hv
    rw [hm, hs, hi, hv]
    simp [Option.or]
  · intro hs hi hsv
    rw [hm, hs, hi, hsv]
    simp [Option.or]

/-- Witness for C1 at a concrete input: the key `port` is absent from the
secrets, present in the inventory, and the merged value is the inventory
value. -/
theorem mergeWithCategoryDefaults_precedence_witness :
    SMap.get? [("token", 4)] "port" = none ∧
    SMap.get? [("port", 3)] "port" = some 3 ∧
    SMap.get? c1Merged "port" = some 3 := by
  refine ⟨rfl, rfl, ?_⟩
  exact (mergeWithCategoryDefaults_precedence c1Env c1Reg "web"
    [("nginx", 1), ("port", 2)] [("port", 3)] [("token", 4)] c1Stack c1Cat c1Merged
    (by rfl) (by rfl) (by decide) (by decide) (by decide) (by decide)
    (by rfl) "port").2.1 rfl 3 rfl

/-- C9: disabling an absent service succeeds and appends it; a subsequent
enable succeeds and restores the list as a set; disabling a present
service fails, and enabling an absent one fails (in both cases the state
write is skipped). -/
theorem disableService_enableService_roundtrip (disabled : List String)
    (x : String) (hx : x ∉ disabled) :
    DisableService disabled x = .ok (disabled ++ [x]) ∧
    EnableService (disabled ++ [x]) x =
      .ok ((disabled ++ [x]).filter (fun s => decide (s ≠ x))) ∧
    (∀ y, y ∈ (disabled ++ [x]).filter (fun s => decide (s ≠ x)) ↔ y ∈ disabled) ∧
    (∀ d : List String, x ∈ d → ∃ e, DisableService d x = .error e) ∧
    (∀ d : List String, x ∉ d → ∃ e, EnableService d x = .error e) := by
  refine ⟨?_, ?_, ?_, ?_, ?_⟩
  · rw [DisableService, if_neg hx]
  · rw [EnableService, if_pos (by simp)]
  · intro y
    simp only [List.mem_filter, List.mem_append, List.mem_singleton,
      decide_eq_true_eq]
    constructor
    · rintro ⟨hy | hy, hne⟩
      · exact hy
      · exact absurd hy hne
    · intro hy
      refine ⟨Or.inl hy, ?_⟩
      intro hyx
      exact hx (hyx ▸ hy)
  · intro d hd
    exact ⟨_, by rw [DisableService, if_pos hd]⟩
  · intro d hd
    exact ⟨_, by rw [EnableService, if_neg hd]⟩

/-- Witness for C9 at a concrete input. -/
theorem disableService_enableService_roundtrip_witness :
    "b" ∉ ["a"] ∧
    DisableService ["a"] "b" = .ok ["a", "b"] ∧
    (∀ y, y ∈ (["a"] ++ ["b"]).filter (fun s => decide (s ≠ "b")) ↔ y ∈ ["a"]) := by
  refine ⟨by decide, ?_, ?_⟩
  · exact (disableService_enableService_roundtrip ["a"] "b" (by decide)).1
  · exact (disableService_enableService_roundtrip ["a"] "b" (by decide)).2.2.1

/-- Nodup is preserved by a single state operation. -/
theorem applyStateOp_nodup (disabled : List String) (op : StateOp)
    (h : disabled.Nodup) : (applyStateOp disabled op).Nodup := by
  cases op with
  | disableSvc x =>
    by_cases hx : x ∈ disabled
    · simpa [applyStateOp, DisableService, hx] using h
    · have hstep : applyStateOp disabled (.disableSvc x) = disabled ++ [x] := by
        simp [applyStateOp, DisableService, hx]
      rw [hstep]
      exact h.append (List.nodup_singleton x)
        (by simpa [List.disjoint_singleton] using hx)
  | enableSvc x =>
    by_cases hx : x ∈ disabled
    · have hstep : applyStateOp disabled (.enableSvc x) =
          disabled.filter (fun s => decide (s ≠ x)) := by
        simp [applyStateOp, EnableService, hx]
      rw [hstep]
      exact h.filter _
    · simpa [applyStateOp, EnableService, hx] using h
  | migrate vars =>
    show (MigrateDisabledServices vars disabled).Nodup
    rw [MigrateDisabledServices]
    rcases hv : SMap.get? vars "disabled_services" with _ | v
    · exact h
    · cases v with
      | vlist items =>
        clear hv
        induction items generalizing disabled with
        | nil => exact h
        | cons item rest ih =>
          refine ih (migrateItem disabled item) ?_
          cases item with
          | str s =>
            by_cases hs : s ∈ disabled
            · simpa [migrateItem, hs] using h
            · simp only [migrateItem, if_neg hs]
              exact h.append (List.nodup_singleton s)
                (by simpa [List.disjoint_singleton] using hs)
          | boolean b => exact h
          | num n => exact h
          | vlist l => exact h
          | vmap m => exact h
      | str s => exact h
      | boolean b => exact h
      | num n => exact h
      | vmap m => exact h

/-- C10: starting from a duplicate-free `disabled_services` list, every
sequence of DisableService, EnableService and MigrateDisabledServices
operations keeps the list duplicate-free. -/
theorem disabledServices_nodup_invariant (disabled : List String)
    (ops : List StateOp) (h : disabled.Nodup) :
    (applyStateOps disabled ops).Nodup := by
  induction ops generalizing disabled with
  | nil => exact h
  | cons op rest ih =>
    exact ih (applyStateOp disabled op) (applyStateOp_nodup disabled op h)

/-- Witness for C10 at a concrete input: a disable, a repeated disable
(refused), a migration with an overlapping legacy list, and an enable. -/
theorem disabledServices_nodup_invariant_witness :
    (["a"] : List String).Nodup ∧
    applyStateOps ["a"]
      [.disableSvc "b", .disableSvc "b",
       .migrate [("disabled_services", CVal.vlist [.str "b", .str "c", .num 3])],
       .enableSvc "a"] = ["b", "c"] ∧
    (applyStateOps ["a"]
      [.disableSvc "b", .disableSvc "b",
       .migrate [("disabled_services", CVal.vlist [.str "b", .str "c", .num 3])],
       .enableSvc "a"]).Nodup := by
  refine ⟨by decide, by decide, ?_⟩
  exact disabledServices_nodup_invariant ["a"] _ (by decide)

theorem swcLE_iff (a b : StackWithCategory) :
    swcLE a b = true ↔
      (a.order < b.order ∨ (a.order = b.order ∧ a.name ≤ b.name)) := by
  rw [swcLE, swcLess]
  by_cases h : b.order = a.order
  · rw [if_neg (by simpa using h)]
    constructor
    · intro hb
      refine Or.inr ⟨h.symm, ?_⟩
      have : ¬ b.name < a.name := by simpa using hb
      exact le_of_not_lt this
    · rintro (hlt | ⟨_, hle⟩)
      · rw [h] at hlt
        exact absurd hlt (lt_irrefl _)
      · simpa using not_lt_of_le hle
  · rw [if_pos (by simpa using h)]
    constructor
    · intro hb
      have : ¬ b.order < a.order := by simpa using hb
      exact Or.inl (lt_of_le_of_ne (le_of_not_lt this) (fun hc => h hc.symm))
    · rintro (hlt | ⟨heq, _⟩)
      · simpa using not_lt_of_le (le_of_lt hlt)
      · exact absurd heq.symm h

theorem swcLE_trans (a b c : StackWithCategory)
    (h1 : swcLE a b = true) (h2 : swcLE b c = true) : swcLE a c = true := by
  rw [swcLE_iff] at h1 h2 ⊢
  rcases h1 with h1 | ⟨h1o, h1n⟩ <;> rcases h2 with h2 | ⟨h2o, h2n⟩
  · exact Or.inl (lt_trans h1 h2)
  · exact Or.inl (h2o ▸ h1)
  · exact Or.inl (h1o ▸ h2)
  · exact Or.inr ⟨h1o.trans h2o, le_trans h1n h2n⟩

theorem swcLE_total (a b : StackWithCategory) :
    (swcLE a b || swcLE b a) = true := by
  rcases lt_trichotomy a.order b.order with h | h | h
  · have : swcLE a b = true := (swcLE_iff a b).mpr (Or.inl h)
    rw [this]
    rfl
  · rcases le_total a.name b.name with hn | hn
    · have : swcLE a b = true := (swcLE_iff a b).mpr (Or.inr ⟨h, hn⟩)
      rw [this]
      rfl
    · have : swcLE b a = true := (swcLE_iff b a).mpr (Or.inr ⟨h.symm, hn⟩)
      rw [this, Bool.or_true]
  · have : swcLE b a = true := (swcLE_iff b a).mpr (Or.inl h)
    rw [this, Bool.or_true]

theorem loadStacksInfo_ok {V : Type} (env : Env V) (reg : Reg V) :
    ∀ names infos, loadStacksInfo env reg names = .ok infos →
      (∀ n ∈ names, ∃ st, loadStack env n = .ok st) ∧
      infos = names.map (infoOf env reg) := by
  intro names
  induction names with
  | nil =>
    intro infos h
    rw [loadStacksInfo] at h
    exact ⟨fun n hn => absurd hn (List.not_mem_nil n), (Except.ok.inj h).symm⟩
  | cons name rest ih =>
    intro infos h
    rw [loadStacksInfo] at h
    cases hld : loadStack env name with
    | error e =>
      rw [hld] at h
      cases h
    | ok stack =>
      rw [hld] at h
      cases hrec : loadStacksInfo env reg rest with
      | error e =>
        rw [hrec] at h
        cases h
      | ok infos' =>
        rw [hrec] at h
        obtain ⟨ih1, ih2⟩ := ih infos' hrec
        constructor
        · intro n hn
          rcases List.mem_cons.mp hn with rfl | hn'
          · exact ⟨stack, hld⟩
          · exact ih1 n hn'
        · rw [← Except.ok.inj h, ih2, List.map_cons]
          have : infoOf env reg name =
              { name := name, category := stack.category,
                order := getOrder reg stack.category } := by
            rw [infoOf, hld]
          rw [this]

theorem loadStacksInfo_ok_of_loads {V : Type} (env : Env V) (reg : Reg V) :
    ∀ names, (∀ n ∈ names, ∃ st, loadStack env n = .ok st) →
      loadStacksInfo env reg names = .ok (names.map (infoOf env reg)) := by
  intro names
  induction names with
  | nil =>
    intro _
    rfl
  | cons name rest ih =>
    intro hload
    obtain ⟨st, hst⟩ := hload name (List.mem_cons_self name rest)
    rw [loadStacksInfo, hst, ih (fun n hn => hload n (List.mem_cons_of_mem name hn))]
    rw [List.map_cons]
    have : infoOf env reg name =
        { name := name, category := st.category,
          order := getOrder reg st.category } := by
      rw [infoOf, hst]
    rw [this]

theorem infoOf_name {V : Type} (env : Env V) (reg : Reg V) (n : String) :
    (infoOf env reg n).name = n := by
  rw [infoOf]
  cases loadStack env n <;> rfl

theorem infoOf_order {V : Type} (env : Env V) (reg : Reg V) (n : String) :
    (infoOf env reg n).order = stackOrderKey env reg n := by
  rw [infoOf, stackOrderKey]
  cases loadStack env n <;> rfl

theorem insertSorted_perm (x : StackWithCategory)
    (l : List StackWithCategory) : (insertSorted x l).Perm (x :: l) := by
  induction l with
  | nil => exact List.Perm.refl _
  | cons y rest ih =>
    rw [insertSorted]
    by_cases h : swcLE x y = true
    · rw [if_pos h]
    · rw [if_neg h]
      exact (List.Perm.cons y ih).trans (List.Perm.swap x y rest)

theorem insertSorted_sorted (x : StackWithCategory)
    (l : List StackWithCategory)
    (hl : l.Pairwise (fun a b => swcLE a b = true)) :
    (insertSorted x l).Pairwise (fun a b => swcLE a b = true) := by
  induction l with
  | nil => simp [insertSorted]
  | cons y rest ih =>
    rw [insertSorted]
    obtain ⟨hy, hrest⟩ := List.pairwise_cons.mp hl
    by_cases h : swcLE x y = true
    · rw [if_pos h]
      refine List.pairwise_cons.mpr ⟨?_, hl⟩
      intro z hz
      rcases List.mem_cons.mp hz with rfl | hz'
      · exact h
      · exact swcLE_trans x y z h (hy z hz')
    · rw [if_neg h]
      have hyx : swcLE y x = true := by
        have htot := swcLE_total x y
        cases hxy : swcLE x y with
        | true => exact absurd hxy h
        | false =>
          rw [hxy] at htot
          simpa using htot
      refine List.pairwise_cons.mpr ⟨?_, ih hrest⟩
      intro z hz
      rcases List.mem_cons.mp
        ((insertSorted_perm x rest).mem_iff.mp hz) with rfl | hz'
      · exact hyx
      · exact hy z hz'

theorem sortStacksInfo_perm (l : List StackWithCategory) :
    (sortStacksInfo l).Perm l := by
  induction l with
  | nil => exact List.Perm.refl _
  | cons x rest ih =>
    show (insertSorted x (sortStacksInfo rest)).Perm (x :: rest)
    exact (insertSorted_perm x _).trans (List.Perm.cons x ih)

theorem sortStacksInfo_sorted (l : List StackWithCategory) :
    (sortStacksInfo l).Pairwise (fun a b => swcLE a b = true) := by
  induction l with
  | nil => exact List.Pairwise.nil
  | cons x rest ih => exact insertSorted_sorted x (sortStacksInfo rest) ih

theorem sortOut_perm {V : Type} (env : Env V) (reg : Reg V) (names : List String) :
    ((sortStacksInfo (names.map (infoOf env reg))).map
      (fun s => s.name)).Perm names := by
  have hp : (sortStacksInfo (names.map (infoOf env reg))).Perm
      (names.map (infoOf env reg)) := sortStacksInfo_perm _
  have hmap := hp.map (fun s : StackWithCategory => s.name)
  rw [List.map_map] at hmap
  have h2 : names.map ((fun s : StackWithCategory => s.name) ∘ infoOf env reg) =
      names := by
    have hcong : ∀ n ∈ names,
        ((fun s : StackWithCategory => s.name) ∘ infoOf env reg) n = n :=
      fun n _ => infoOf_name env reg n
    rw [List.map_congr_left hcong]
    simp
  rw [h2] at hmap
  exact hmap

theorem sortOut_pairwise {V : Type} (env : Env V) (reg : Reg V)
    (names : List String) :
    ((sortStacksInfo (names.map (infoOf env reg))).map
      (fun s => s.name)).Pairwise (nameLE env reg) := by
  have hs := sortStacksInfo_sorted (names.map (infoOf env reg))
  rw [List.pairwise_map]
  apply List.Pairwise.imp_of_mem ?_ hs
  intro a b ha hb hab
  have hma : a ∈ names.map (infoOf env reg) :=
    (sortStacksInfo_perm (names.map (infoOf env reg))).subset ha
  have hmb : b ∈ names.map (infoOf env reg) :=
    (sortStacksInfo_perm (names.map (infoOf env reg))).subset hb
  obtain ⟨na, hna, rfl⟩ := List.mem_map.mp hma
  obtain ⟨nb, hnb, rfl⟩ := List.mem_map.mp hmb
  rw [swcLE_iff] at hab
  rw [infoOf_name, infoOf_name, nameLE]
  rcases hab with h | ⟨ho, hn⟩
  · left
    rw [infoOf_order, infoOf_order] at h
    exact h
  · right
    rw [infoOf_order, infoOf_order] at ho
    rw [infoOf_name, infoOf_name] at hn
    exact ⟨ho, hn⟩

/-- C7: for every list of enabled stack names whose manifests load, the
deployment order returned by the category sorter is a permutation of the
input sorted by (category order, name), and any permutation of the input
yields the same output sequence (the order is the unique such total
order). -/
theorem sortByCategory_deployment_order {V : Type} (env : Env V) (reg : Reg V)
    (names out : List String)
    (hok : SortByCategory env reg names = .ok out) :
    out.Perm names ∧ out.Pairwise (nameLE env reg) ∧
    (∀ names2, names.Perm names2 →
      SortByCategory env reg names2 = .ok out) := by
  have hloads : ∀ n ∈ names, ∃ st, loadStack env n = .ok st := by
    rw [SortByCategory] at hok
    cases hli : loadStacksInfo env reg names with
    | error e =>
      rw [hli] at hok
      cases hok
    | ok infos =>
      exact (loadStacksInfo_ok env reg names infos hli).1
  have heval : SortByCategory env reg names =
      .ok ((sortStacksInfo (names.map (infoOf env reg))).map
        (fun s => s.name)) := by
    rw [SortByCategory, loadStacksInfo_ok_of_loads env reg names hloads]
  have hout : out = (sortStacksInfo (names.map (infoOf env reg))).map
      (fun s => s.name) := by
    rw [heval] at hok
    exact (Except.ok.inj hok).symm
  subst hout
  refine ⟨sortOut_perm env reg names, sortOut_pairwise env reg names, ?_⟩
  intro names2 hperm
  have hloads2 : ∀ n ∈ names2, ∃ st, loadStack env n = .ok st :=
    fun n hn => hloads n (hperm.mem_iff.mpr hn)
  have heval2 : SortByCategory env reg names2 =
      .ok ((sortStacksInfo (names2.map (infoOf env reg))).map
        (fun s => s.name)) := by
    rw [SortByCategory, loadStacksInfo_ok_of_loads env reg names2 hloads2]
  rw [heval2]
  congr 1
  haveI : IsAntisymm String (nameLE env reg) := by
    constructor
    intro a b h1 h2
    rcases h1 with h1 | ⟨e1, l1⟩ <;> rcases h2 with h2 | ⟨e2, l2⟩
    · exact absurd h2 (lt_asymm h1)
    · exact absurd (e2 ▸ h1) (lt_irrefl _)
    · exact absurd (e1 ▸ h2) (lt_irrefl _)
    · exact le_antisymm l1 l2
  apply List.eq_of_perm_of_sorted (r := nameLE env reg)
  · exact (sortOut_perm env reg names2).trans
      (hperm.symm.trans (sortOut_perm env reg names).symm)
  · exact sortOut_pairwise env reg names2
  · exact sortOut_pairwise env reg names

/-- Witness for C7 at a concrete input: two permutations of the same
enabled set sort to the same deployment order. -/
theorem sortByCategory_deployment_order_witness :
    SortByCategory c7Env c7Reg ["web", "db", "cache"] =
      .ok ["cache", "db", "web"] ∧
    SortByCategory c7Env c7Reg ["db", "cache", "web"] =
      .ok ["cache", "db", "web"] := by
  have h := sortByCategory_deployment_order c7Env c7Reg ["web", "db", "cache"]
    ["cache", "db", "web"] (by decide)
  exact ⟨by decide, h.2.2 ["db", "cache", "web"] (by decide)⟩

theorem checkCategoryDeps_none_iff {V : Type} (env : Env V) (reg : Reg V)
    (a : String) (cA : Category V) (deps : List String) :
    checkCategoryDeps env reg a cA deps = none ↔
      (∀ b ∈ deps, ∀ stB, loadStack env b = .ok stB →
        ∀ cB, reg stB.category = some cB → cB.order ≤ cA.order) := by
  induction deps with
  | nil =>
    simp [checkCategoryDeps]
  | cons b rest ih =>
    rw [checkCategoryDeps]
    split
    · rename_i e' hld
      rw [ih]
      constructor
      · intro h b' hb' stB hstB cB hcB
        rcases List.mem_cons.mp hb' with rfl | hb''
        · rw [hld] at hstB
          cases hstB
        · exact h b' hb'' stB hstB cB hcB
      · intro h b' hb'
        exact h b' (List.mem_cons_of_mem b hb')
    · rename_i stB0 hld
      split
      · rename_i hreg
        rw [ih]
        constructor
        · intro h b' hb' stB hstB cB hcB
          rcases List.mem_cons.mp hb' with rfl | hb''
          · rw [hld] at hstB
            have heq : stB0 = stB := Except.ok.inj hstB
            subst heq
            rw [hreg] at hcB
            cases hcB
          · exact h b' hb'' stB hstB cB hcB
        · intro h b' hb'
          exact h b' (List.mem_cons_of_mem b hb')
      · rename_i cB0 hreg
        by_cases hord : cA.order < cB0.order
        · rw [if_pos hord]
          constructor
          · intro h
            cases h
          · intro h
            exact absurd (h b (List.mem_cons_self b rest) stB0 hld cB0 hreg)
              (not_le_of_lt hord)
        · rw [if_neg hord, ih]
          constructor
          · intro h b' hb' stB hstB cB hcB
            rcases List.mem_cons.mp hb' with rfl | hb''
            · rw [hld] at hstB
              have heq : stB0 = stB := Except.ok.inj hstB
              subst heq
              rw [hreg] at hcB
              have heq2 : cB0 = cB := Option.some.inj hcB
              subst heq2
              exact le_of_not_lt hord
            · exact h b' hb'' stB hstB cB hcB
          · intro h b' hb'
            exact h b' (List.mem_cons_of_mem b hb')

theorem checkCategoryDeps_some_shape {V : Type} (env : Env V) (reg : Reg V)
    (a : String) (cA : Category V) (deps : List String) :
    ∀ e, checkCategoryDeps env reg a cA deps = some e →
      ∃ b, b ∈ deps ∧ ∃ stB, loadStack env b = .ok stB ∧
        ∃ cB, reg stB.category = some cB ∧ cA.order < cB.order ∧
        e = { stackName := a, stackCategory := cA.displayName,
              stackOrder := cA.order, depName := b,
              depCategory := cB.displayName, depOrder := cB.order,
              alternatives := categoryDepAlternatives a b cA.name cB.name } := by
  induction deps with
  | nil =>
    intro e h
    rw [checkCategoryDeps] at h
    cases h
  | cons b rest ih =>
    intro e h
    rw [checkCategoryDeps] at h
    split at h
    · obtain ⟨b', hb', rest'⟩ := ih e h
      exact ⟨b', List.mem_cons_of_mem b hb', rest'⟩
    · rename_i stB0 hld
      split at h
      · obtain ⟨b', hb', rest'⟩ := ih e h
        exact ⟨b', List.mem_cons_of_mem b hb', rest'⟩
      · rename_i cB0 hreg
        by_cases hord : cA.order < cB0.order
        · rw [if_pos hord] at h
          exact ⟨b, List.mem_cons_self b rest, stB0, hld, cB0, hreg, hord,
            (Option.some.inj h).symm⟩
        · rw [if_neg hord] at h
          obtain ⟨b', hb', rest'⟩ := ih e h
          exact ⟨b', List.mem_cons_of_mem b hb', rest'⟩

/-- C4: for enabled stacks whose manifests load and whose categories are
registered, category-hierarchy validation succeeds iff every enabled
dependency edge goes to a category of lower-or-equal order (edges whose
target fails to load, or whose target category is unregistered, are
skipped); on violation it fails with an error naming both stacks, both
categories (display names), both orders, and the three remediation
alternatives. -/
theorem validateCategoryDependencies_correct {V : Type} (env : Env V)
    (reg : Reg V) (stackNames : List String)
    (hload : ∀ n ∈ stackNames, ∃ st, loadStack env n = .ok st)
    (hreg : ∀ n st, loadStack env n = .ok st → ∃ c, reg st.category = some c) :
    (ValidateCategoryDependencies env reg stackNames = .ok () ↔
      (∀ a ∈ stackNames, ∀ stA, loadStack env a = .ok stA →
        ∀ cA, reg stA.category = some cA →
        ∀ b ∈ stA.requires, ∀ stB, loadStack env b = .ok stB →
        ∀ cB, reg stB.category = some cB → cB.order ≤ cA.order)) ∧
    (∀ e, ValidateCategoryDependencies env reg stackNames =
        .error (.invalidDep e) →
      ∃ a, a ∈ stackNames ∧ ∃ stA, loadStack env a = .ok stA ∧
        ∃ cA, reg stA.category = some cA ∧
        ∃ b, b ∈ stA.requires ∧ ∃ stB, loadStack env b = .ok stB ∧
        ∃ cB, reg stB.category = some cB ∧ cA.order < cB.order ∧
        e = { stackName := a, stackCategory := cA.displayName,
              stackOrder := cA.order, depName := b,
              depCategory := cB.displayName, depOrder := cB.order,
              alternatives := categoryDepAlternatives a b cA.name cB.name } ∧
        e.alternatives.length = 3) := by
  induction stackNames with
  | nil =>
    constructor
    · constructor
      · intro _ a ha
        exact absurd ha (List.not_mem_nil a)
      · intro _
        rfl
    · intro e he
      rw [ValidateCategoryDependencies] at he
      cases he
  | cons a0 rest ih =>
    obtain ⟨stA0, hstA0⟩ := hload a0 (List.mem_cons_self a0 rest)
    obtain ⟨cA0, hcA0⟩ := hreg a0 stA0 hstA0
    have hload' : ∀ n ∈ rest, ∃ st, loadStack env n = .ok st :=
      fun n hn => hload n (List.mem_cons_of_mem a0 hn)
    obtain ⟨ih1, ih2⟩ := ih hload'
    have hred : ValidateCategoryDependencies env reg (a0 :: rest) =
        (match checkCategoryDeps env reg a0 cA0 stA0.requires with
         | some e => .error (.invalidDep e)
         | none => ValidateCategoryDependencies env reg rest) := by
      simp only [ValidateCategoryDependencies, hstA0, hcA0]
    constructor
    · rw [hred]
      split
      · rename_i e0 hchk
        constructor
        · intro h
          cases h
        · intro h
          obtain ⟨b, hb, stB, hstB, cB, hcB, hord, _⟩ :=
            checkCategoryDeps_some_shape env reg a0 cA0 stA0.requires e0 hchk
          exact absurd (h a0 (List.mem_cons_self a0 rest) stA0 hstA0 cA0 hcA0
            b hb stB hstB cB hcB) (not_le_of_lt hord)
      · rename_i hchk
        rw [ih1]
        constructor
        · intro h a ha stA hstA cA hcA b hb stB hstB cB hcB
          rcases List.mem_cons.mp ha with rfl | ha'
          · have h1 : stA0 = stA := by
              rw [hstA0] at hstA
              exact Except.ok.inj hstA
            subst h1
            have h2 : cA0 = cA := by
              rw [hcA0] at hcA
              exact Option.some.inj hcA
            subst h2
            exact (checkCategoryDeps_none_iff env reg a cA0
              stA0.requires).mp hchk b hb stB hstB cB hcB
          · exact h a ha' stA hstA cA hcA b hb stB hstB cB hcB
        · intro h a ha
          exact h a (List.mem_cons_of_mem a0 ha)
    · intro e he
      rw [hred] at he
      split at he
      · rename_i e0 hchk
        have he0 : e0 = e := by
          have h1 := Except.error.inj he
          exact CatValErr.invalidDep.inj h1
        subst he0
        obtain ⟨b, hb, stB, hstB, cB, hcB, hord, hshape⟩ :=
          checkCategoryDeps_some_shape env reg a0 cA0 stA0.requires e0 hchk
        refine ⟨a0, List.mem_cons_self a0 rest, stA0, hstA0, cA0, hcA0, b, hb,
          stB, hstB, cB, hcB, hord, hshape, ?_⟩
        rw [hshape]
        rfl
      · rename_i hchk
        obtain ⟨a, ha, rest'⟩ := ih2 e he
        exact ⟨a, List.mem_cons_of_mem a0 ha, rest'⟩

/-- Witness for C4 at a concrete input: validation of `[jelly]` succeeds
(it has no dependency edges), and validation of `[proxy, jelly]` fails
because `proxy` (order 2) depends on `jelly` (order 5); the error names
both stacks, both orders, and carries three alternatives. -/
theorem validateCategoryDependencies_correct_witness :
    ValidateCategoryDependencies c4Env c4Reg ["jelly"] = .ok () ∧
    ∃ e, ValidateCategoryDependencies c4Env c4Reg ["proxy", "jelly"] =
        .error (.invalidDep e) ∧ e.stackName = "proxy" ∧ e.depName = "jelly" ∧
      e.stackOrder = 2 ∧ e.depOrder = 5 ∧ e.alternatives.length = 3 := by
  have hload : ∀ n ∈ ["jelly"], ∃ st, loadStack c4Env n = .ok st := by
    intro n hn
    rcases List.mem_cons.mp hn with rfl | h
    · exact ⟨_, rfl⟩
    · exact absurd h (List.not_mem_nil n)
  have hreg : ∀ n st, loadStack c4Env n = .ok st →
      ∃ c, c4Reg st.category = some c := by
    intro n st hst
    by_cases h1 : n = "proxy"
    · subst h1
      have hst' : Except.ok c4Proxy = Except.ok st := hst
      rw [← Except.ok.inj hst']
      exact ⟨_, rfl⟩
    · by_cases h2 : n = "jelly"
      · subst h2
        have hst' : Except.ok c4Jelly = Except.ok st := hst
        rw [← Except.ok.inj hst']
        exact ⟨_, rfl⟩
      · have henv : c4Env n = none := by
          show (if n = "proxy" then some c4Proxy
            else if n = "jelly" then some c4Jelly else none) = none
          rw [if_neg h1, if_neg h2]
        rw [loadStack, henv] at hst
        cases hst
  have hviol : ∀ a ∈ ["jelly"], ∀ stA, loadStack c4Env a = .ok stA →
      ∀ cA, c4Reg stA.category = some cA →
      ∀ b ∈ stA.requires, ∀ stB, loadStack c4Env b = .ok stB →
      ∀ cB, c4Reg stB.category = some cB → cB.order ≤ cA.order := by
    intro a ha stA hstA cA hcA b hb stB hstB cB hcB
    rcases List.mem_cons.mp ha with rfl | h
    · have hst' : Except.ok c4Jelly = Except.ok stA := hstA
      rw [← Except.ok.inj hst'] at hb
      exact absurd hb (List.not_mem_nil b)
    · exact absurd h (List.not_mem_nil a)
  refine ⟨(validateCategoryDependencies_correct c4Env c4Reg ["jelly"]
    hload hreg).1.mpr hviol, ?_⟩
  refine ⟨{ stackName := "proxy", stackCategory := "Infrastructure",
            stackOrder := 2, depName := "jelly", depCategory := "Media",
            depOrder := 5,
            alternatives := categoryDepAlternatives "proxy" "jelly"
              "infrastructure" "media" }, ?_, rfl, rfl, rfl, rfl, rfl⟩
  decide

theorem updSt_same (st : StMap) (n : String) (v : VState) :
    updSt st n v n = v := by
  simp [updSt]

theorem updSt_other (st : StMap) (n : String) (v : VState) (m : String)
    (h : m ≠ n) : updSt st n v m = st m := by
  simp [updSt, h]

theorem someTriple_inj {a a' : StMap} {b b' : List String}
    {c c' : Option (List String)}
    (h : (some (a, b, c) : Option (StMap × List String × Option (List String)))
      = some (a', b', c')) : a = a' ∧ b = b' ∧ c = c' := by
  have h2 := Option.some.inj h
  exact ⟨congrArg Prod.fst h2, congrArg (fun t => t.2.1) h2,
    congrArg (fun t => t.2.2) h2⟩

theorem Advances.refl (st : StMap) : Advances st st :=
  ⟨fun _ h => h, fun _ => Iff.rfl, fun _ h => h⟩

theorem Advances.trans {st1 st2 st3 : StMap} (h1 : Advances st1 st2)
    (h2 : Advances st2 st3) : Advances st1 st3 :=
  ⟨fun x h => h2.1 x (h1.1 x h),
   fun x => (h2.2.1 x).trans (h1.2.1 x),
   fun x h => h1.2.2 x (h2.2.2 x h)⟩

theorem dfsListF_none_spec_aux (fuel : Nat) (adj : String → List String)
    (Hf : ∀ st path node st' path', st node = .unvisited →
      dfsF fuel adj st path node = some (st', path', none) →
      path' = path ∧ Advances st st' ∧ st' node = .visited) :
    ∀ deps st path st' path',
      dfsListF fuel adj st path deps = some (st', path', none) →
      path' = path ∧ Advances st st' ∧ ∀ d ∈ deps, st' d = .visited := by
  intro deps
  induction deps with
  | nil =>
    intro st path st' path' h
    rw [dfsListF] at h
    obtain ⟨h1, h2, _⟩ := someTriple_inj h
    subst h1
    subst h2
    exact ⟨rfl, Advances.refl st, fun d hd => absurd hd (List.not_mem_nil d)⟩
  | cons dep rest ih =>
    intro st path st' path' h
    rw [dfsListF] at h
    split at h
    · obtain ⟨_, _, h3⟩ := someTriple_inj h
      cases h3
    · rename_i hdep
      split at h
      · cases h
      · obtain ⟨_, _, h3⟩ := someTriple_inj h
        cases h3
      · rename_i st2 path2 hf
        obtain ⟨hp, hadv, hvis⟩ := Hf st path dep st2 path2 hdep hf
        subst hp
        obtain ⟨hp', hadv', hall⟩ := ih st2 path2 st' path' h
        refine ⟨hp', hadv.trans hadv', ?_⟩
        intro d hd
        rcases List.mem_cons.mp hd with rfl | hd'
        · exact hadv'.1 d hvis
        · exact hall d hd'
    · rename_i hdep
      obtain ⟨hp', hadv', hall⟩ := ih st path st' path' h
      refine ⟨hp', hadv', ?_⟩
      intro d hd
      rcases List.mem_cons.mp hd with rfl | hd'
      · -- st d = .visited persists
        exact hadv'.1 d hdep
      · exact hall d hd'

theorem dfsF_none_spec : ∀ (fuel : Nat) (adj : String → List String)
    (st : StMap) (path : List String) (node : String) (st' : StMap)
    (path' : List String), st node = .unvisited →
    dfsF fuel adj st path node = some (st', path', none) →
    path' = path ∧ Advances st st' ∧ st' node = .visited := by
  intro fuel
  induction fuel with
  | zero =>
    intro adj st path node st' path' _ h
    rw [dfsF] at h
    cases h
  | succ n ihf =>
    intro adj st path node st' path' hunv h
    rw [dfsF] at h
    split at h
    · cases h
    · obtain ⟨_, _, h3⟩ := someTriple_inj h
      cases h3
    · rename_i st2 path2 hlist
      obtain ⟨h1, h2, _⟩ := someTriple_inj h
      obtain ⟨hp, hadv, hall⟩ := dfsListF_none_spec_aux n adj
        (fun s p nd s' p' => ihf adj s p nd s' p') (adj node)
        (updSt st node .visiting) (path ++ [node]) st2 path2 hlist
      have hpath : path' = path := by
        rw [← h2, hp]
        simp
      have hst2node : st2 node = .visiting := by
        rw [(hadv.2.1 node)]
        exact updSt_same st node .visiting
      have hstnode' : st' node = .visited := by
        rw [← h1]
        exact updSt_same st2 node .visited
      refine ⟨hpath, ?_, hstnode'⟩
      refine ⟨?_, ?_, ?_⟩
      · intro x hx
        have hxne : x ≠ node := by
          intro hc
          rw [hc, hunv] at hx
          cases hx
        rw [← h1, updSt_other st2 node .visited x hxne]
        exact hadv.1 x (by rw [updSt_other st node .visiting x hxne]; exact hx)
      · intro x
        by_cases hxne : x = node
        · subst hxne
          rw [hstnode', hunv]
          constructor
          · intro hc
            cases hc
          · intro hc
            cases hc
        · rw [← h1, updSt_other st2 node .visited x hxne]
          rw [hadv.2.1 x, updSt_other st node .visiting x hxne]
      · intro x hx
        have hxne : x ≠ node := by
          intro hc
          rw [hc, hstnode'] at hx
          cases hx
        rw [← h1, updSt_other st2 node .visited x hxne] at hx
        have := hadv.2.2 x hx
        rw [updSt_other st node .visiting x hxne] at this
        exact this

/-- Exported form of the dependency-loop lemma. -/
theorem dfsListF_none_spec (fuel : Nat) (adj : String → List String)
    (deps : List String) (st : StMap) (path : List String) (st' : StMap)
    (path' : List String)
    (h : dfsListF fuel adj st path deps = some (st', path', none)) :
    path' = path ∧ Advances st st' ∧ ∀ d ∈ deps, st' d = .visited :=
  dfsListF_none_spec_aux fuel adj
    (fun s p nd s' p' => dfsF_none_spec fuel adj s p nd s' p')
    deps st path st' path' h

theorem getLast_app_singleton (l : List String) (a : String)
    (h : l ++ [a] ≠ []) : (l ++ [a]).getLast h = a := by
  simp [List.getLast_append]

theorem dropWhile_ne_spec (dep : String) :
    ∀ path : List String, dep ∈ path →
      ∃ t rest, path = t ++ dep :: rest ∧
        path.dropWhile (fun x => decide (x ≠ dep)) = dep :: rest := by
  intro path
  induction path with
  | nil =>
    intro h
    exact absurd h (List.not_mem_nil dep)
  | cons a path' ih =>
    intro h
    by_cases ha : a = dep
    · subst ha
      refine ⟨[], path', rfl, ?_⟩
      rw [List.dropWhile_cons]
      rw [if_neg (by simp)]
    · have hmem : dep ∈ path' := by
        rcases List.mem_cons.mp h with h' | h'
        · exact absurd h'.symm ha
        · exact h'
      obtain ⟨t, rest, hpath, hdrop⟩ := ih hmem
      refine ⟨a :: t, rest, by rw [hpath]; rfl, ?_⟩
      rw [List.dropWhile_cons]
      rw [if_pos (by simpa using ha)]
      exact hdrop

theorem extractCycle_isCycle (adj : String → List String)
    (path : List String) (dep : String)
    (hch : List.Chain' (fun x y => y ∈ adj x) path) (hdep : dep ∈ path)
    (hne : path ≠ []) (hclose : dep ∈ adj (path.getLast hne)) :
    IsCycleList adj (extractCycle path dep) := by
  obtain ⟨t, rest, hpath, hdrop⟩ := dropWhile_ne_spec dep path hdep
  rw [extractCycle, if_pos hdep, hdrop]
  have hsuffix : dep :: rest <:+ path := ⟨t, hpath.symm⟩
  have hchd : List.Chain' (fun x y => y ∈ adj x) (dep :: rest) :=
    hch.suffix hsuffix
  have hlast : (dep :: rest).getLast (List.cons_ne_nil dep rest) =
      path.getLast hne := by
    have h1 : path.getLast? = some (path.getLast hne) :=
      List.getLast?_eq_getLast path hne
    have h2 : (dep :: rest).getLast? =
        some ((dep :: rest).getLast (List.cons_ne_nil dep rest)) :=
      List.getLast?_eq_getLast _ _
    have h3 : path.getLast? = (dep :: rest).getLast? := by
      rw [hpath]
      exact List.getLast?_append_of_ne_nil t (List.cons_ne_nil dep rest)
    rw [h1, h2] at h3
    exact (Option.some.inj h3).symm
  rw [IsCycleList]
  constructor
  · exact hchd
  · rw [hlast]
    exact hclose

theorem dfsListF_cycle_sound_aux (fuel : Nat) (adj : String → List String)
    (Hf : ∀ st path node st' path' c,
      (∀ x, st x = .visiting ↔ x ∈ path) →
      List.Chain' (fun x y => y ∈ adj x) (path ++ [node]) →
      st node = .unvisited →
      dfsF fuel adj st path node = some (st', path', some c) →
      IsCycleList adj c) :
    ∀ deps st path st' path' c (hne : path ≠ []),
      (∀ x, st x = .visiting ↔ x ∈ path) →
      List.Chain' (fun x y => y ∈ adj x) path →
      (∀ d ∈ deps, d ∈ adj (path.getLast hne)) →
      dfsListF fuel adj st path deps = some (st', path', some c) →
      IsCycleList adj c := by
  intro deps
  induction deps with
  | nil =>
    intro st path st' path' c hne hvp hch hdeps h
    rw [dfsListF] at h
    obtain ⟨_, _, h3⟩ := someTriple_inj h
    cases h3
  | cons dep rest ih =>
    intro st path st' path' c hne hvp hch hdeps h
    rw [dfsListF] at h
    split at h
    · rename_i hdep
      obtain ⟨_, _, h3⟩ := someTriple_inj h
      have hc : extractCycle path dep = c := Option.some.inj h3
      rw [← hc]
      exact extractCycle_isCycle adj path dep hch ((hvp dep).mp hdep) hne
        (hdeps dep (List.mem_cons_self dep rest))
    · rename_i hdep
      split at h
      · cases h
      · rename_i st2 path2 cyc hf
        obtain ⟨_, _, h3⟩ := someTriple_inj h
        have hc : cyc = c := Option.some.inj h3
        rw [← hc]
        refine Hf st path dep st2 path2 cyc hvp ?_ hdep hf
        rw [List.chain'_append]
        refine ⟨hch, by simp, ?_⟩
        intro x hx y hy
        rw [List.getLast?_eq_getLast path hne] at hx
        have hxv : x = path.getLast hne := by
          have := hx
          simp at this
          exact this.symm
        have hyv : y = dep := by
          have := hy
          simp at this
          exact this.symm
        rw [hxv, hyv]
        exact hdeps dep (List.mem_cons_self dep rest)
      · rename_i st2 path2 hf
        obtain ⟨hp, hadv, _⟩ := dfsF_none_spec fuel adj st path dep st2 path2
          hdep hf
        subst hp
        refine ih st2 path2 st' path' c hne ?_ hch
          (fun d hd => hdeps d (List.mem_cons_of_mem dep hd)) h
        intro x
        rw [hadv.2.1 x]
        exact hvp x
    · rename_i hdep
      exact ih st path st' path' c hne hvp hch
        (fun d hd => hdeps d (List.mem_cons_of_mem dep hd)) h

theorem dfsF_cycle_sound : ∀ (fuel : Nat) (adj : String → List String)
    (st : StMap) (path : List String) (node : String) (st' : StMap)
    (path' : List String) (c : List String),
    (∀ x, st x = .visiting ↔ x ∈ path) →
    List.Chain' (fun x y => y ∈ adj x) (path ++ [node]) →
    st node = .unvisited →
    dfsF fuel adj st path node = some (st', path', some c) →
    IsCycleList adj c := by
  intro fuel
  induction fuel with
  | zero =>
    intro adj st path node st' path' c _ _ _ h
    rw [dfsF] at h
    cases h
  | succ n ihf =>
    intro adj st path node st' path' c hvp hch hunv h
    rw [dfsF] at h
    split at h
    · cases h
    · rename_i st2 path2 cyc hlist
      obtain ⟨_, _, h3⟩ := someTriple_inj h
      have hc : cyc = c := Option.some.inj h3
      rw [← hc]
      have hne1 : path ++ [node] ≠ [] := by simp
      refine dfsListF_cycle_sound_aux n adj
        (fun s p nd s' p' c' => ihf adj s p nd s' p' c') (adj node)
        (updSt st node .visiting) (path ++ [node]) st2 path2 cyc hne1
        ?_ hch ?_ hlist
      · intro x
        by_cases hx : x = node
        · subst hx
          rw [updSt_same]
          simp
        · rw [updSt_other st node .visiting x hx]
          rw [hvp x]
          constructor
          · intro hmem
            exact List.mem_append_left _ hmem
          · intro hmem
            rcases List.mem_append.mp hmem with hmem | hmem
            · exact hmem
            · exact absurd (List.mem_singleton.mp hmem) hx
      · intro d hd
        rw [getLast_app_singleton path node hne1]
        exact hd
    · rename_i st2 path2 hlist
      obtain ⟨_, _, h3⟩ := someTriple_inj h
      cases h3

theorem goodRank_congr (adj : String → List String) {st st' : StMap}
    (h : ∀ x, st x = .visited ↔ st' x = .visited) :
    GoodRank adj st → GoodRank adj st' := by
  rintro ⟨r, B, hb, hs⟩
  refine ⟨r, B, ?_, ?_⟩
  · intro x hx
    exact hb x ((h x).mpr hx)
  · intro x hx d hd
    obtain ⟨h1, h2⟩ := hs x ((h x).mpr hx) d hd
    exact ⟨(h d).mp h1, h2⟩

theorem goodRank_finish (adj : String → List String) (st : StMap)
    (node : String) (hgr : GoodRank adj st) (hnode : st node = .visiting)
    (hdeps : ∀ d ∈ adj node, st d = .visited) :
    GoodRank adj (updSt st node .visited) := by
  obtain ⟨r, B, hb, hs⟩ := hgr
  refine ⟨fun x => if x = node then B else r x, B + 1, ?_, ?_⟩
  · intro x hx
    show (if x = node then B else r x) < B + 1
    by_cases hxn : x = node
    · rw [if_pos hxn]
      omega
    · rw [if_neg hxn]
      rw [updSt_other st node .visited x hxn] at hx
      have := hb x hx
      omega
  · intro x hx d hd
    show updSt st node VState.visited d = VState.visited ∧
      (if d = node then B else r d) < (if x = node then B else r x)
    by_cases hxn : x = node
    · subst hxn
      have hdv : st d = .visited := hdeps d hd
      have hdn : d ≠ x := by
        intro hc
        rw [hc, hnode] at hdv
        cases hdv
      rw [updSt_other st x .visited d hdn]
      refine ⟨hdv, ?_⟩
      rw [if_neg hdn, if_pos rfl]
      exact hb d hdv
    · rw [updSt_other st node .visited x hxn] at hx
      obtain ⟨hdv, hrlt⟩ := hs x hx d hd
      have hdn : d ≠ node := by
        intro hc
        rw [hc, hnode] at hdv
        cases hdv
      rw [updSt_other st node .visited d hdn]
      refine ⟨hdv, ?_⟩
      rw [if_neg hdn, if_neg hxn]
      exact hrlt

theorem dfsListF_goodRank_aux (fuel : Nat) (adj : String → List String)
    (Hf : ∀ st path node st' path', st node = .unvisited →
      dfsF fuel adj st path node = some (st', path', none) →
      GoodRank adj st → GoodRank adj st') :
    ∀ deps st path st' path',
      dfsListF fuel adj st path deps = some (st', path', none) →
      GoodRank adj st → GoodRank adj st' := by
  intro deps
  induction deps with
  | nil =>
    intro st path st' path' h hgr
    rw [dfsListF] at h
    obtain ⟨h1, _, _⟩ := someTriple_inj h
    rw [← h1]
    exact hgr
  | cons dep rest ih =>
    intro st path st' path' h hgr
    rw [dfsListF] at h
    split at h
    · obtain ⟨_, _, h3⟩ := someTriple_inj h
      cases h3
    · rename_i hdep
      split at h
      · cases h
      · obtain ⟨_, _, h3⟩ := someTriple_inj h
        cases h3
      · rename_i st2 path2 hf
        exact ih st2 path2 st' path' h (Hf st path dep st2 path2 hdep hf hgr)
    · exact ih st path st' path' h hgr

theorem dfsF_goodRank : ∀ (fuel : Nat) (adj : String → List String)
    (st : StMap) (path : List String) (node : String) (st' : StMap)
    (path' : List String), st node = .unvisited →
    dfsF fuel adj st path node = some (st', path', none) →
    GoodRank adj st → GoodRank adj st' := by
  intro fuel
  induction fuel with
  | zero =>
    intro adj st path node st' path' _ h
    rw [dfsF] at h
    cases h
  | succ n ihf =>
    intro adj st path node st' path' hunv h hgr
    rw [dfsF] at h
    split at h
    · cases h
    · obtain ⟨_, _, h3⟩ := someTriple_inj h
      cases h3
    · rename_i st2 path2 hlist
      obtain ⟨h1, _, _⟩ := someTriple_inj h
      obtain ⟨hp, hadv, hall⟩ := dfsListF_none_spec n adj (adj node)
        (updSt st node .visiting) (path ++ [node]) st2 path2 hlist
      have hgr1 : GoodRank adj (updSt st node .visiting) := by
        refine goodRank_congr adj ?_ hgr
        intro x
        by_cases hx : x = node
        · subst hx
          rw [updSt_same, hunv]
          constructor
          · intro hc
            cases hc
          · intro hc
            cases hc
        · rw [updSt_other st node .visiting x hx]
      have hgr2 : GoodRank adj st2 := dfsListF_goodRank_aux n adj
        (fun s p nd s' p' => ihf adj s p nd s' p') (adj node)
        (updSt st node .visiting) (path ++ [node]) st2 path2 hlist hgr1
      have hst2node : st2 node = .visiting := by
        rw [hadv.2.1 node]
        exact updSt_same st node .visiting
      rw [← h1]
      exact goodRank_finish adj st2 node hgr2 hst2node hall

theorem countU_le_length (st : StMap) (U : List String) :
    countU st U ≤ U.length :=
  List.countP_le_length _

theorem countU_mono {st st' : StMap} (h : Advances st st') (U : List String) :
    countU st' U ≤ countU st U := by
  apply List.countP_mono_left
  intro x _ hx
  simp only [decide_eq_true_eq] at hx ⊢
  exact h.2.2 x hx

theorem countU_update_lt (st : StMap) (node : String) (U : List String)
    (hmem : node ∈ U) (hunv : st node = .unvisited) :
    countU (updSt st node .visiting) U < countU st U := by
  induction U with
  | nil => exact absurd hmem (List.not_mem_nil node)
  | cons u us ih =>
    rw [countU, List.countP_cons, countU, List.countP_cons]
    by_cases hu : u = node
    · subst hu
      have h1 : (decide (updSt st u .visiting u = VState.unvisited)) = false := by
        rw [updSt_same]
        simp
      have h2 : (decide (st u = VState.unvisited)) = true := by
        rw [hunv]
        simp
      rw [h1, h2]
      rw [if_neg (by simp), if_pos rfl]
      have hle : countU (updSt st u .visiting) us ≤ countU st us := by
        apply List.countP_mono_left
        intro x _ hx
        simp only [decide_eq_true_eq] at hx ⊢
        by_cases hxu : x = u
        · rw [hxu, updSt_same] at hx
          cases hx
        · rw [updSt_other st u .visiting x hxu] at hx
          exact hx
      simp only [countU] at hle
      omega
    · rcases List.mem_cons.mp hmem with hc | hmem'
      · exact absurd hc.symm hu
      · have heq : (decide (updSt st node .visiting u = VState.unvisited)) =
            (decide (st u = VState.unvisited)) := by
          rw [updSt_other st node .visiting u hu]
        rw [heq]
        have := ih hmem'
        rw [countU, countU] at this
        omega

theorem dfsListF_fuel_aux (fuel : Nat) (adj : String → List String)
    (U : List String) (_hcl : ∀ x, ∀ d ∈ adj x, d ∈ U)
    (Hf : ∀ st path node, node ∈ U → st node = .unvisited →
      countU st U < fuel → dfsF fuel adj st path node ≠ none) :
    ∀ deps st path, (∀ d ∈ deps, d ∈ U) → countU st U < fuel →
      dfsListF fuel adj st path deps ≠ none := by
  intro deps
  induction deps with
  | nil =>
    intro st path _ _ h
    rw [dfsListF] at h
    cases h
  | cons dep rest ih =>
    intro st path hsub hlt h
    rw [dfsListF] at h
    split at h
    · cases h
    · rename_i hdep
      split at h
      · rename_i hdfs
        exact Hf st path dep (hsub dep (List.mem_cons_self dep rest)) hdep
          hlt hdfs
      · cases h
      · rename_i st2 path2 hdfs
        obtain ⟨_, hadv, _⟩ := dfsF_none_spec fuel adj st path dep st2 path2
          hdep hdfs
        exact ih st2 path2
          (fun d hd => hsub d (List.mem_cons_of_mem dep hd))
          (lt_of_le_of_lt (countU_mono hadv U) hlt) h
    · exact ih st path (fun d hd => hsub d (List.mem_cons_of_mem dep hd))
        hlt h

theorem dfsF_fuel (adj : String → List String) (U : List String)
    (hcl : ∀ x, ∀ d ∈ adj x, d ∈ U) :
    ∀ (fuel : Nat) (st : StMap) (path : List String) (node : String),
      node ∈ U → st node = .unvisited → countU st U < fuel →
      dfsF fuel adj st path node ≠ none := by
  intro fuel
  induction fuel with
  | zero =>
    intro st path node _ _ hlt
    exact absurd hlt (Nat.not_lt_zero _)
  | succ n ihf =>
    intro st path node hmem hunv hlt h
    rw [dfsF] at h
    split at h
    · rename_i hlist
      have hlt2 : countU (updSt st node .visiting) U < n := by
        have h1 := countU_update_lt st node U hmem hunv
        omega
      exact dfsListF_fuel_aux n adj U hcl
        (fun s p nd hm hu hl => ihf s p nd hm hu hl) (adj node)
        (updSt st node .visiting) (path ++ [node])
        (fun d hd => hcl node d hd) hlt2 hlist
    · cases h
    · cases h

theorem detectLoop_ne_none (fuel : Nat) (adj : String → List String)
    (U : List String) (hcl : ∀ x, ∀ d ∈ adj x, d ∈ U)
    (hfuel : U.length < fuel) :
    ∀ (keysL : List String) (st : StMap) (path : List String),
      (∀ k ∈ keysL, k ∈ U) →
      detectLoop fuel adj st path keysL ≠ none := by
  intro keysL
  induction keysL with
  | nil =>
    intro st path _ h
    rw [detectLoop] at h
    cases h
  | cons k ks ih =>
    intro st path hks h
    rw [detectLoop] at h
    split at h
    · rename_i hk
      split at h
      · rename_i hdfs
        exact dfsF_fuel adj U hcl fuel st path k
          (hks k (List.mem_cons_self k ks)) hk
          (lt_of_le_of_lt (countU_le_length st U) hfuel) hdfs
      · rename_i st2 path2 ocyc hdfs
        split at h
        · rename_i hloop
          exact ih st2 path2
            (fun x hx => hks x (List.mem_cons_of_mem k hx)) hloop
        · cases h
    · exact ih st path (fun x hx => hks x (List.mem_cons_of_mem k hx)) h
    · exact ih st path (fun x hx => hks x (List.mem_cons_of_mem k hx)) h

theorem someTriple_inj3 {A B C : Type} {a a2 : A} {b b2 : B} {c c2 : C}
    (h : (some (a, b, c) : Option (A × B × C)) = some (a2, b2, c2)) :
    a = a2 ∧ b = b2 ∧ c = c2 := by
  have h2 := Option.some.inj h
  exact ⟨congrArg Prod.fst h2, congrArg (fun t => t.2.1) h2,
    congrArg (fun t => t.2.2) h2⟩

theorem detectLoop_head_sound (fuel : Nat) (adj : String → List String) :
    ∀ (keysL : List String) (st st' : StMap) (path' : List String)
      (cycles : List (List String)) (c : List String),
      (∀ x, st x ≠ .visiting) →
      detectLoop fuel adj st [] keysL = some (st', path', cycles) →
      cycles.head? = some c → IsCycleList adj c := by
  intro keysL
  induction keysL with
  | nil =>
    intro st st' path' cycles c _ h hc
    rw [detectLoop] at h
    obtain ⟨_, _, h3⟩ := someTriple_inj3 h
    rw [← h3] at hc
    cases hc
  | cons k ks ih =>
    intro st st' path' cycles c hnv h hc
    rw [detectLoop] at h
    split at h
    · rename_i hk
      split at h
      · cases h
      · rename_i st2 path2 ocyc hdfs
        split at h
        · cases h
        · rename_i st3 path3 cycles2 hloop
          obtain ⟨_, _, h3⟩ := someTriple_inj3 h
          cases ocyc with
          | some c0 =>
            rw [← h3] at hc
            have hcc : c0 = c := by simpa using hc
            rw [← hcc]
            have hvp : ∀ x, st x = .visiting ↔ x ∈ ([] : List String) := by
              intro x
              simp [hnv x]
            have hch : List.Chain' (fun x y => y ∈ adj x)
                (([] : List String) ++ [k]) := by simp
            exact dfsF_cycle_sound fuel adj st [] k st2 path2 c0 hvp hch hk
              hdfs
          | none =>
            obtain ⟨hp2, hadv, _⟩ := dfsF_none_spec fuel adj st [] k st2
              path2 hk hdfs
            have hnv2 : ∀ x, st2 x ≠ .visiting := fun x hx =>
              hnv x ((hadv.2.1 x).mp hx)
            subst hp2
            rw [← h3] at hc
            exact ih st2 st3 path3 cycles2 c hnv2 hloop hc
    · rename_i hk
      exact absurd hk (hnv k)
    · exact ih st st' path' cycles c hnv h hc

theorem detectLoop_no_cycles (fuel : Nat) (adj : String → List String) :
    ∀ (keysL : List String) (st st' : StMap) (path' : List String),
      (∀ x, st x ≠ .visiting) → GoodRank adj st →
      detectLoop fuel adj st [] keysL = some (st', path', []) →
      GoodRank adj st' ∧ (∀ x, st x = .visited → st' x = .visited) ∧
        (∀ x, st' x ≠ .visiting) ∧ ∀ k ∈ keysL, st' k = .visited := by
  intro keysL
  induction keysL with
  | nil =>
    intro st st' path' hnv hgr h
    rw [detectLoop] at h
    obtain ⟨h1, _, _⟩ := someTriple_inj3 h
    rw [← h1]
    exact ⟨hgr, fun _ hx => hx, hnv,
      fun k hk => absurd hk (List.not_mem_nil k)⟩
  | cons k ks ih =>
    intro st st' path' hnv hgr h
    rw [detectLoop] at h
    split at h
    · rename_i hk
      split at h
      · cases h
      · rename_i st2 path2 ocyc hdfs
        split at h
        · cases h
        · rename_i st3 path3 cycles2 hloop
          obtain ⟨h1, _, h3⟩ := someTriple_inj3 h
          cases ocyc with
          | some c0 => cases h3
          | none =>
            obtain ⟨hp2, hadv, hkvis⟩ := dfsF_none_spec fuel adj st [] k
              st2 path2 hk hdfs
            have hnv2 : ∀ x, st2 x ≠ .visiting := fun x hx =>
              hnv x ((hadv.2.1 x).mp hx)
            have hgr2 : GoodRank adj st2 := dfsF_goodRank fuel adj st [] k
              st2 path2 hk hdfs hgr
            subst hp2
            subst h3
            obtain ⟨hgr3, hpers, hnv3, hvis⟩ := ih st2 st3 path3 hnv2 hgr2
              hloop
            rw [← h1]
            refine ⟨hgr3, fun x hx => hpers x (hadv.1 x hx), hnv3, ?_⟩
            intro k2 hk2
            rcases List.mem_cons.mp hk2 with hc | hm
            · subst hc
              exact hpers k2 hkvis
            · exact hvis k2 hm
    · rename_i hk
      exact absurd hk (hnv k)
    · rename_i hk
      obtain ⟨hgr3, hpers, hnv3, hvis⟩ := ih st st' path' hnv hgr h
      refine ⟨hgr3, hpers, hnv3, ?_⟩
      intro k2 hk2
      rcases List.mem_cons.mp hk2 with hc | hm
      · subst hc
        exact hpers k2 hk
      · exact hvis k2 hm

theorem chain_rank_mem (adj : String → List String) (st : StMap)
    (r : String → Nat)
    (hs : ∀ x, st x = .visited → ∀ d ∈ adj x, st d = .visited ∧ r d < r x) :
    ∀ (rest : List String) (a : String),
      List.Chain (fun x y => y ∈ adj x) a rest → st a = .visited →
      ∀ x ∈ a :: rest, st x = .visited ∧ r x ≤ r a := by
  intro rest
  induction rest with
  | nil =>
    intro a _ ha x hx
    rcases List.mem_cons.mp hx with hc | hm
    · subst hc
      exact ⟨ha, le_refl _⟩
    · exact absurd hm (List.not_mem_nil x)
  | cons b rest2 ih =>
    intro a hch ha x hx
    rw [List.chain_cons] at hch
    obtain ⟨hab, hch2⟩ := hch
    obtain ⟨hb, hrb⟩ := hs a ha b hab
    rcases List.mem_cons.mp hx with hc | hm
    · subst hc
      exact ⟨ha, le_refl _⟩
    · obtain ⟨h1, h2⟩ := ih b hch2 hb x hm
      exact ⟨h1, by omega⟩

theorem goodRank_no_cycle (adj : String → List String) (st : StMap)
    (hgr : GoodRank adj st)
    (hall : ∀ x, adj x ≠ [] → st x = .visited) :
    ∀ c, ¬ IsCycleList adj c := by
  obtain ⟨r, B, hb, hs⟩ := hgr
  intro c hc
  match c with
  | [] => exact hc
  | a :: rest =>
    obtain ⟨hchain, hclose⟩ := hc
    have hlv : st ((a :: rest).getLast (List.cons_ne_nil a rest)) =
        .visited := hall _ (List.ne_nil_of_mem hclose)
    obtain ⟨hav, hra⟩ := hs _ hlv a hclose
    have hmem : (a :: rest).getLast (List.cons_ne_nil a rest) ∈ a :: rest :=
      List.getLast_mem _
    obtain ⟨_, hle⟩ := chain_rank_mem adj st r hs rest a hchain hav _ hmem
    omega

theorem goodRank_init (adj : String → List String) :
    GoodRank adj (fun _ => VState.unvisited) := by
  refine ⟨fun _ => 0, 1, ?_, ?_⟩
  · intro x hx
    cases hx
  · intro x hx
    cases hx

theorem buildGraph_get {V : Type} (env : Env V) :
    ∀ (names : List String) (g : SMap (List String)),
      buildGraph env names = .ok g →
      ∀ n stk, n ∈ names → loadStack env n = .ok stk →
        SMap.get? g n = some stk.requires := by
  intro names
  induction names with
  | nil =>
    intro g _ n stk hn
    exact absurd hn (List.not_mem_nil n)
  | cons name rest ih =>
    intro g h n stk hn hload
    rw [buildGraph] at h
    split at h
    · cases h
    · rename_i stack hstk
      split at h
      · cases h
      · rename_i g2 hg2
        have hg : g = g2.set name stack.requires := (Except.ok.inj h).symm
        subst hg
        rw [SMap.get?_set]
        by_cases hne : name = n
        · rw [if_pos hne]
          subst hne
          rw [hstk] at hload
          rw [Except.ok.inj hload]
        · rw [if_neg hne]
          rcases List.mem_cons.mp hn with hc | hm
          · exact absurd hc.symm hne
          · exact ih g2 hg2 n stk hm hload

theorem buildGraph_keys {V : Type} (env : Env V) :
    ∀ (names : List String) (g : SMap (List String)),
      buildGraph env names = .ok g → ∀ k ∈ SMap.keys g, k ∈ names := by
  intro names
  induction names with
  | nil =>
    intro g h k hk
    rw [buildGraph] at h
    have hg : g = SMap.empty := (Except.ok.inj h).symm
    subst hg
    exact absurd hk (List.not_mem_nil k)
  | cons name rest ih =>
    intro g h k hk
    rw [buildGraph] at h
    split at h
    · cases h
    · rename_i stack hstk
      split at h
      · cases h
      · rename_i g2 hg2
        have hg : g = g2.set name stack.requires := (Except.ok.inj h).symm
        subst hg
        rcases (SMap.mem_keys_set g2 name stack.requires k).mp hk with
          hc | hm
        · rw [hc]
          exact List.mem_cons_self name rest
        · exact List.mem_cons_of_mem name (ih g2 hg2 k hm)

theorem buildGraph_mem_keys {V : Type} (env : Env V)
    (names : List String) (g : SMap (List String))
    (h : buildGraph env names = .ok g)
    (hload : ∀ n ∈ names, ∃ stk, loadStack env n = .ok stk) :
    ∀ n ∈ names, n ∈ SMap.keys g := by
  intro n hn
  obtain ⟨stk, hstk⟩ := hload n hn
  exact SMap.get?_mem_keys g n stk.requires
    (buildGraph_get env names g h n stk hn hstk)

theorem SMap.get?_snd_mem {V : Type} :
    ∀ (m : SMap V) (k : String) (v : V),
      SMap.get? m k = some v → v ∈ List.map Prod.snd m := by
  intro m
  induction m with
  | nil =>
    intro k v h
    rw [SMap.get?] at h
    cases h
  | cons p rest ih =>
    obtain ⟨pk, pv⟩ := p
    intro k v h
    rw [SMap.get?] at h
    rw [List.map_cons]
    by_cases hk : pk = k
    · rw [if_pos hk] at h
      have hv := Option.some.inj h
      subst hv
      exact List.mem_cons_self _ _
    · rw [if_neg hk] at h
      exact List.mem_cons_of_mem _ (ih k v h)

theorem adjOf_closure (g : SMap (List String)) :
    ∀ x, ∀ d ∈ adjOf g x, d ∈ graphUniv g := by
  intro x d hd
  rw [adjOf] at hd
  cases hg : SMap.get? g x with
  | none =>
    rw [hg] at hd
    simp at hd
  | some l =>
    rw [hg] at hd
    simp at hd
    have hmem : l ∈ List.map Prod.snd g := SMap.get?_snd_mem g x l hg
    rw [graphUniv]
    apply List.mem_append_right
    exact List.mem_flatten.mpr ⟨l, hmem, hd⟩

theorem adjOf_ne_nil_mem_keys (g : SMap (List String)) (x : String)
    (h : adjOf g x ≠ []) : x ∈ SMap.keys g := by
  rw [adjOf] at h
  cases hg : SMap.get? g x with
  | none =>
    rw [hg] at h
    simp at h
  | some l => exact SMap.get?_mem_keys g x l hg

theorem checkDepsEnabled_ok {V : Type} (env : Env V)
    (enabledAll : List String) :
    ∀ (names : List String),
      (∀ n ∈ names, ∃ stk, loadStack env n = .ok stk ∧
        ∀ d ∈ stk.requires, d ∈ enabledAll) →
      checkDepsEnabled env enabledAll names = .ok () := by
  intro names
  induction names with
  | nil =>
    intro _
    rw [checkDepsEnabled]
  | cons name rest ih =>
    intro hp
    obtain ⟨stk, hl, hreq⟩ := hp name (List.mem_cons_self _ _)
    have hfind : stk.requires.find?
        (fun dep => !(EnabledStacksMap enabledAll dep)) = none := by
      rw [List.find?_eq_none]
      intro d hd
      rw [EnabledStacksMap]
      simp [hreq d hd]
    simp only [checkDepsEnabled, hl, hfind]
    exact ih (fun n hn => hp n (List.mem_cons_of_mem _ hn))

/-- C2: over the enabled-stack dependency graph with all required stacks
enabled, dependency validation succeeds for every acyclic graph, and for
every graph containing a directed cycle it fails with a reported cycle
that is a genuine directed cycle of the input graph (for every
enumeration order of the Go graph map). -/
theorem validateDependencies_cycle_correct {V : Type} (env : Env V)
    (enabledStacks keyOrder : List String) (g : SMap (List String))
    (hload : ∀ n ∈ enabledStacks, ∃ stk, loadStack env n = .ok stk)
    (hpres : ∀ n stk, n ∈ enabledStacks → loadStack env n = .ok stk →
      ∀ d ∈ stk.requires, d ∈ enabledStacks)
    (hg : buildGraph env enabledStacks = .ok g)
    (hperm : keyOrder.Perm (SMap.keys g)) :
    ((¬ ∃ c, IsCycleList (adjOf g) c) →
      ValidateDependencies env enabledStacks keyOrder = .ok ()) ∧
    (∀ c0, IsCycleList (adjOf g) c0 →
      ∃ c, ValidateDependencies env enabledStacks keyOrder =
        .error (.dependencyCycle c) ∧ IsCycleList (adjOf g) c) := by
  have hchk : checkDepsEnabled env enabledStacks enabledStacks = .ok () := by
    apply checkDepsEnabled_ok
    intro n hn
    obtain ⟨stk, hstk⟩ := hload n hn
    exact ⟨stk, hstk, hpres n stk hn hstk⟩
  have hcl := adjOf_closure g
  have hkeysU : ∀ k ∈ keyOrder, k ∈ graphUniv g := by
    intro k hk
    exact List.mem_append_left _ (hperm.mem_iff.mp hk)
  have hne := detectLoop_ne_none (cdFuel g) (adjOf g) (graphUniv g) hcl
    (Nat.lt_succ_self _) keyOrder (fun _ => VState.unvisited) [] hkeysU
  rcases hdet : detectLoop (cdFuel g) (adjOf g) (fun _ => VState.unvisited)
      [] keyOrder with _ | ⟨stF, pathF, cycles⟩
  · exact absurd hdet hne
  · have hDC : DetectCycles g keyOrder = some cycles := by
      simp only [DetectCycles, hdet]
    have hnv0 : ∀ x,
        (fun _ : String => VState.unvisited) x ≠ VState.visiting := by
      intro x h
      cases h
    constructor
    · intro hnc
      cases cycles with
      | nil => simp only [ValidateDependencies, hchk, hg, hDC]
      | cons c rest =>
        have hsound := detectLoop_head_sound (cdFuel g) (adjOf g) keyOrder
          (fun _ => VState.unvisited) stF pathF (c :: rest) c hnv0 hdet rfl
        exact absurd ⟨c, hsound⟩ hnc
    · intro c0 hc0
      cases cycles with
      | nil =>
        obtain ⟨hgr, _, _, hvisK⟩ := detectLoop_no_cycles (cdFuel g)
          (adjOf g) keyOrder (fun _ => VState.unvisited) stF pathF hnv0
          (goodRank_init (adjOf g)) hdet
        have hall : ∀ x, adjOf g x ≠ [] → stF x = .visited := by
          intro x hx
          exact hvisK x (hperm.mem_iff.mpr (adjOf_ne_nil_mem_keys g x hx))
        exact absurd hc0 (goodRank_no_cycle (adjOf g) stF hgr hall c0)
      | cons c rest =>
        refine ⟨c, ?_, ?_⟩
        · simp only [ValidateDependencies, hchk, hg, hDC]
        · exact detectLoop_head_sound (cdFuel g) (adjOf g) keyOrder
            (fun _ => VState.unvisited) stF pathF (c :: rest) c hnv0 hdet
            rfl

theorem validateDependencies_cycle_correct_witness :
    ∃ c, ValidateDependencies c2Env ["a", "b"] ["a", "b"] =
      .error (.dependencyCycle c) ∧ IsCycleList (adjOf c2Graph) c := by
  have hload : ∀ n ∈ ["a", "b"], ∃ stk, loadStack c2Env n = .ok stk := by
    intro n hn
    rcases List.mem_cons.mp hn with h | hn2
    · subst h
      exact ⟨c2ManA, rfl⟩
    · rcases List.mem_cons.mp hn2 with h | hn3
      · subst h
        exact ⟨c2ManB, rfl⟩
      · exact absurd hn3 (List.not_mem_nil n)
  have hpres : ∀ n stk, n ∈ ["a", "b"] → loadStack c2Env n = .ok stk →
      ∀ d ∈ stk.requires, d ∈ ["a", "b"] := by
    intro n stk hn hl d hd
    rcases List.mem_cons.mp hn with h | hn2
    · subst h
      have he : (.ok c2ManA : Except String (StackManifest CVal)) =
          .ok stk := hl
      rw [← Except.ok.inj he] at hd
      have hdb : d = "b" := by simpa [c2ManA] using hd
      subst hdb
      simp
    · rcases List.mem_cons.mp hn2 with h | hn3
      · subst h
        have he : (.ok c2ManB : Except String (StackManifest CVal)) =
            .ok stk := hl
        rw [← Except.ok.inj he] at hd
        have hda : d = "a" := by simpa [c2ManB] using hd
        subst hda
        simp
      · exact absurd hn3 (List.not_mem_nil n)
  have hcyc : IsCycleList (adjOf c2Graph) ["a", "b"] := by
    constructor
    · exact List.Chain.cons (List.mem_cons_self "b" []) List.Chain.nil
    · exact List.mem_cons_self "a" []
  exact (validateDependencies_cycle_correct c2Env ["a", "b"] ["a", "b"]
    c2Graph hload hpres rfl (by decide)).2 ["a", "b"] hcyc

end Homelab
